import Mathlib

/-!
SpectralAnalyzer: the keyframe animation engine.

A shallow embedding of `src/animation` (`keyframe.h`, `keyframe-inl.h`,
`animator.h`, `animator.cc`, `standard_easing.h`, `standard_easing.cc`,
`transition_store.h` and `transition_store.cc`) and of the function `trim` of
`src/utils/misc.cc`.

Modelling conventions.

* `float` is modelled by `ℚ`: exact arithmetic, no rounding, no NaN and no
  infinities.  Where the source divides without a guard or calls `std::pow`
  (the easing classes), the result is an `Option ℚ` and `none` stands for a
  result that is not a finite number.
* `std::map<K, T>` is modelled by an association list kept in increasing key
  order (`StdMap`).  Iterators are positions in that list, from `begin()`,
  which is `0`, to `end()`, which is the length.  The operations assume, but do not require, that
  the list is strictly sorted by key; `StdMap.Sorted` states it.
* A pointer to a client variable is its address, a `Nat`; the client storage is
  a function from addresses to values (`World.heap`).  The registry of the
  source stores timelines of different value types behind `boost::any`; the
  model fixes one value type `V` for the whole registry.
* `boost::shared_ptr<BaseEasing>` is `Option BaseEasing`; the empty pointer is
  `none`.  An easing object is represented by its virtual method `get`.
* The `Timer` member `time_` reads the wall clock.  Every read of
  `time_.getElapsed()` is an explicit argument of the operation performing it.
* A C++ exception is an `Except.error`.
* A `std::string` is the list of its characters; a position is a `Nat` and
  `std::string::npos` is `none`.  The property tree read by
  `TransitionStore::setProperties` is the list of its children, each with its
  key, its `length` attribute and its data string.
-/

namespace SpectralAnalyzer

/-- The exceptions thrown by the animation engine (`keyframe.h`, `animator.h`),
each with the argument string given to its constructor; `Base` is the base
class `Exception` of `utils/exception.h` thrown as such, with its text;
`Foreign` is an exception of the standard library or of Boost, with the name
of its class. -/
inductive Exception where
  | AnimationEmpty (arg : String)
  | AnimatorUnknownVariable (arg : String)
  | Base (what : String)
  | Foreign (type : String)
  deriving DecidableEq, Repr

/-! ## `std::map` -/

/-- An association list in increasing key order, standing for `std::map`. -/
abbrev StdMap (K : Type) (α : Type) := List (K × α)

namespace StdMap

variable {K : Type} {α : Type}

/-- The keys are strictly increasing: the representation invariant of `std::map`. -/
def Sorted [LinearOrder K] (m : StdMap K α) : Prop :=
  List.Pairwise (fun a b => a.1 < b.1) m

instance instDecidableSorted [LinearOrder K] (m : StdMap K α) : Decidable (Sorted m) := by
  unfold Sorted; infer_instance

/-- The call `m.lower_bound(k)`: the position of the first element whose key is not less
than `k`; the length of the list (`end()`) when there is none. -/
def lower_bound [LinearOrder K] : (m : StdMap K α) → K → Fin (m.length + 1)
  | [], _ => 0
  | e :: rest, k => if e.1 < k then (lower_bound rest k).succ else 0

/-- The assignment `m[k] = v`: the element with key `k` is overwritten when present and
inserted at its place in the order otherwise. -/
def assign [LinearOrder K] : StdMap K α → K → α → StdMap K α
  | [], k, v => [(k, v)]
  | e :: rest, k, v =>
    if k < e.1 then (k, v) :: e :: rest
    else if e.1 < k then e :: assign rest k v
    else (k, v) :: rest

/-- The call `m.find(k)`: the mapped value of the element with key `k`, `none` for `end()`. -/
def find [LinearOrder K] : StdMap K α → K → Option α
  | [], _ => none
  | e :: rest, k => if e.1 = k then some e.2 else find rest k

/-- The call `m.count(k)`. -/
def count [LinearOrder K] (m : StdMap K α) (k : K) : Nat :=
  if (find m k).isSome then 1 else 0

/-- The call `m.erase(k)`: removes the element with key `k`, if any. -/
def erase [LinearOrder K] (m : StdMap K α) (k : K) : StdMap K α :=
  m.filter (fun e => decide (e.1 ≠ k))

/-- The call `m.insert(std::make_pair(k, v))`: inserts only when no element has key `k`. -/
def insert [LinearOrder K] (m : StdMap K α) (k : K) (v : α) : StdMap K α :=
  if (find m k).isSome then m else assign m k v

/-- Applies `f` in place to the mapped value of the element with key `k`
(a use of the reference returned by `m[k]` when `k` is present). -/
def modify [LinearOrder K] : StdMap K α → K → (α → α) → StdMap K α
  | [], _, _ => []
  | e :: rest, k, f => if e.1 = k then (e.1, f e.2) :: rest else e :: modify rest k f

end StdMap

/-! ## Easing functions -/

/-- The interface `BaseEasing` (`base_easing.h`): an object with one virtual
method `float get(float x) const`. -/
structure BaseEasing where
  get : ℚ → ℚ

/-- The smart pointer `BaseEasingPtr`; `none` is the empty pointer. -/
abbrev BaseEasingPtr := Option BaseEasing

namespace StandardEasing

/-- The method `StandardEasing::getLinear`. -/
def getLinear (x : ℚ) : ℚ := x

/-- The easing object `StandardEasing(StandardEasing::LINEAR)`: for the type
`LINEAR`, `StandardEasing::get(x)` returns `getLinear(x)` before looking at the
subtype or at any parameter. -/
def LINEAR : BaseEasing := ⟨getLinear⟩

end StandardEasing

/-! ## Keyframes and timelines (`keyframe.h`, `keyframe-inl.h`) -/

/-- The class `Keyframe<T>`: the value to reach and the easing used to reach it. -/
structure Keyframe (V : Type) where
  value : V
  easing : BaseEasingPtr := none

/-- The class `Animation<T>`: the keyframes by time. -/
structure Animation (V : Type) where
  keyframes_ : StdMap ℚ (Keyframe V) := []

namespace Animation

variable {V : Type}

/-- The method `Animation::isRunning`: `keyframes_.lower_bound(t) != keyframes_.end()`. -/
def isRunning (self : Animation V) (t : ℚ) : Bool :=
  (StdMap.lower_bound self.keyframes_ t).val != self.keyframes_.length

/-- The method `Animation::addKeyframe`: `keyframes_[t] = frame`. -/
def addKeyframe (self : Animation V) (t : ℚ) (frame : Keyframe V) : Animation V :=
  ⟨StdMap.assign self.keyframes_ t frame⟩

/-- The method `Animation::getInitial`: the value of `keyframes_.begin()`. -/
def getInitial (self : Animation V) : Except Exception V :=
  match self.keyframes_.head? with
  | none => .error (.AnimationEmpty "::getInitial")
  | some e => .ok e.2.value

/-- The method `Animation::getTarget`: the value of `keyframes_.rbegin()`. -/
def getTarget (self : Animation V) : Except Exception V :=
  match self.keyframes_.getLast? with
  | none => .error (.AnimationEmpty "::getTarget")
  | some e => .ok e.2.value

/-- The method `Animation::getElapsed`. -/
def getElapsed (self : Animation V) (t : ℚ) : ℚ :=
  match self.keyframes_.head? with
  | none => 0
  | some e => t - e.1

/-- The method `Animation::getRemaining`. -/
def getRemaining (self : Animation V) (t : ℚ) : ℚ :=
  match self.keyframes_.getLast? with
  | none => 0
  | some e => e.1 - t

/-- The method `Animation::get`: the value of the variable at time `t`.  The iterator `i`
is a position in the keyframe list and `j` is the position before it. -/
def get [Add V] [SMul ℚ V] (self : Animation V) (t : ℚ) : Except Exception V :=
  if self.keyframes_.isEmpty then .error (.AnimationEmpty "::get")
  else
    let i := StdMap.lower_bound self.keyframes_ t
    if hend : i.val = self.keyframes_.length then self.getTarget
    else if i.val = 0 then self.getInitial
    else
      let ki := self.keyframes_.get ⟨i.val, by omega⟩
      let kj := self.keyframes_.get ⟨i.val - 1, by omega⟩
      let t0 := kj.1
      let t1 := ki.1
      let len := t1 - t0
      let f := if len > 0 then (t - t0) / len else 1
      let x := match ki.2.easing with
        | some e => e.get f
        | none => 0
      .ok ((1 - x) • kj.2.value + x • ki.2.value)

end Animation

/-! ## The registry (`animator.h`, `animator.cc`) -/

/-- The class `Animator::AnimationData<T>`: the pointer to the animated variable kept by
`BaseAnimationData` and the timeline of that variable. -/
structure AnimationData (V : Type) where
  variable_ : Nat
  keyframes_ : Animation V := {}

/-- The class `Animator`: the active animations by variable address.  The
member `time_` is the clock, whose reads are arguments of the operations. -/
structure Animator (V : Type) where
  animations_ : StdMap Nat (AnimationData V) := []

/-- The memory seen by the operations of `Animator`: the storage of the client
variables by address, and the `Animator` object itself. -/
structure World (V : Type) where
  heap : Nat → V
  animator : Animator V := {}

namespace AnimationData

variable {V : Type}

/-- The method `AnimationData::update`: `*(getVarPtr()) = keyframes_.get(t)`. -/
def update [Add V] [SMul ℚ V] (self : AnimationData V) (heap : Nat → V) (t : ℚ) :
    Except Exception (Nat → V) :=
  match self.keyframes_.get t with
  | .error err => .error err
  | .ok v => .ok (Function.update heap self.variable_ v)

/-- The method `AnimationData::isRunning`. -/
def isRunning (self : AnimationData V) (t : ℚ) : Bool :=
  self.keyframes_.isRunning t

end AnimationData

namespace Animator

variable {V : Type}

/-- The method `Animator::isAnimated`: `animations_.find(variable) != animations_.end()`. -/
def isAnimated (w : World V) (var : Nat) : Bool :=
  (StdMap.find w.animator.animations_ var).isSome

/-- The method `Animator::deleteAnimation`: `animations_.erase(variable)`. -/
def deleteAnimation (w : World V) (var : Nat) : World V :=
  { w with animator := ⟨StdMap.erase w.animator.animations_ var⟩ }

/-- The method `Animator::addKeyframe`.  `now` is the value read from `time_.getElapsed()`. -/
def addKeyframe (w : World V) (var : Nat) (dt : ℚ) (value : V) (easing : BaseEasingPtr)
    (now : ℚ) : World V :=
  let heap := if dt = 0 then Function.update w.heap var value else w.heap
  let t := now + dt
  let animations :=
    if StdMap.count w.animator.animations_ var = 0 then
      StdMap.insert w.animator.animations_ var { variable_ := var }
    else w.animator.animations_
  { heap := heap,
    animator := ⟨StdMap.modify animations var
      (fun d => { d with keyframes_ := d.keyframes_.addKeyframe t ⟨value, easing⟩ })⟩ }

/-- The method `Animator::doTransition`.  `now₁` and `now₂` are the clock values read by the
first and by the second call of `addKeyframe`. -/
def doTransition (w : World V) (var : Nat) (start end_ : V) (trans : ℚ × BaseEasingPtr)
    (now₁ now₂ : ℚ) : World V :=
  let w := deleteAnimation w var
  if trans.1 > 0 then
    let w := addKeyframe w var 0 start none now₁
    addKeyframe w var trans.1 end_ trans.2 now₂
  else
    { w with heap := Function.update w.heap var end_ }

/-- The method `Animator::getInitial`. -/
def getInitial (w : World V) (var : Nat) : Except Exception V :=
  match StdMap.find w.animator.animations_ var with
  | none => .error (.AnimatorUnknownVariable "::getInitial")
  | some d => d.keyframes_.getInitial

/-- The method `Animator::getTarget`. -/
def getTarget (w : World V) (var : Nat) : Except Exception V :=
  match StdMap.find w.animator.animations_ var with
  | none => .ok (w.heap var)
  | some d => d.keyframes_.getTarget

/-- The method `Animator::getElapsed`.  `now` is read from the clock only when the variable
is animated. -/
def getElapsed (w : World V) (var : Nat) (now : ℚ) : Except Exception ℚ :=
  match StdMap.find w.animator.animations_ var with
  | none => .error (.AnimatorUnknownVariable "::getElapsed")
  | some d => .ok (d.keyframes_.getElapsed now)

/-- The method `Animator::getRemaining`.  `now` is read from the clock only when the
variable is animated. -/
def getRemaining (w : World V) (var : Nat) (now : ℚ) : ℚ :=
  match StdMap.find w.animator.animations_ var with
  | none => 0
  | some d => d.keyframes_.getRemaining now

/-- The method `Animator::get`. -/
def get (w : World V) (var : Nat) (instantaneous : Bool) : Except Exception V :=
  if instantaneous then .ok (w.heap var) else getTarget w var

/-- The method `Animator::redoTransition`.  `now₀` is the clock value read by
`getRemaining` (only when the variable is animated); `now₁` and `now₂` are the
values read by the first and by the second call of `addKeyframe`. -/
def redoTransition (w : World V) (var : Nat) (end_ : V) (trans : ℚ × BaseEasingPtr)
    (now₀ now₁ now₂ : ℚ) : World V :=
  let len := trans.1
  let p : ℚ × World V :=
    if isAnimated w var then
      let len := len - getRemaining w var now₀
      let len := if len < 0 then 0 else len
      (len, deleteAnimation w var)
    else (len, w)
  let len := p.1
  let w := p.2
  if len > 0 then
    let w := addKeyframe w var 0 (w.heap var) none now₁
    addKeyframe w var len end_ trans.2 now₂
  else
    { w with heap := Function.update w.heap var end_ }

/-- The first loop of `Animator::update`: every entry, in key order, writes the
value of its timeline at `t` into its variable.  An exception ends the loop. -/
def updateValues [Add V] [SMul ℚ V] :
    StdMap Nat (AnimationData V) → (Nat → V) → ℚ → Except Exception (Nat → V)
  | [], heap, _ => .ok heap
  | e :: rest, heap, t =>
    match e.2.update heap t with
    | .error err => .error err
    | .ok heap => updateValues rest heap t

/-- The second loop of `Animator::update`: the entries whose animation is not
running at `t` are erased, the others are stepped over. -/
def eraseEnded : StdMap Nat (AnimationData V) → ℚ → StdMap Nat (AnimationData V)
  | [], _ => []
  | e :: rest, t =>
    if !e.2.isRunning t then eraseEnded rest t
    else e :: eraseEnded rest t

/-- The method `Animator::update`.  `now` is the single value read from
`time_.getElapsed()`.  An exception thrown by a timeline leaves `update`; the
writes made before it are then not represented. -/
def update [Add V] [SMul ℚ V] (w : World V) (now : ℚ) : Except Exception (World V) :=
  match updateValues w.animator.animations_ w.heap now with
  | .error err => .error err
  | .ok heap => .ok { heap := heap, animator := ⟨eraseEnded w.animator.animations_ now⟩ }

end Animator

namespace Animation

variable {V : Type}

/-- The value `Animation::get` computes between the keyframes `kj` and `ki`
(the last six lines of its body), named for use in statements. -/
def interpolate [Add V] [SMul ℚ V] (kj ki : ℚ × Keyframe V) (t : ℚ) : V :=
  let len := ki.1 - kj.1
  let f := if len > 0 then (t - kj.1) / len else 1
  let x := match ki.2.easing with
    | some e => e.get f
    | none => 0
  (1 - x) • kj.2.value + x • ki.2.value

end Animation

/-! ## Concrete timelines and worlds used in the examples -/

/-- Two keyframes, the second one reached with no easing (an empty pointer). -/
def stepTimeline : Animation ℚ :=
  ⟨[(0, ⟨0, none⟩), (1, ⟨1, none⟩)]⟩

/-- Two keyframes, the second one reached with the linear easing. -/
def linearTimeline : Animation ℚ :=
  ⟨[(0, ⟨0, none⟩), (1, ⟨1, some StandardEasing.LINEAR⟩)]⟩

/-- The empty registry, the variable `x` at address `0` holding `0`. -/
def initialWorld : World ℚ := { heap := fun _ => 0 }

/-- The world reached from `initialWorld` by `doTransition(&x, 0, 1, (1, linear))`
at clock time `0` followed by `update()` at clock time `1/2`: `x` holds `1/2`
and is still animated. -/
def halfwayWorld : World ℚ :=
  { heap := Function.update (fun _ => 0) 0 (1 / 2),
    animator := ⟨[(0, ⟨0, linearTimeline⟩)]⟩ }

/-- Two animated variables: `x` at address `0` on `linearTimeline`, which ends at
time `1`, and `y` at address `1` on a timeline that ends at time `3`. -/
def twoVariableWorld : World ℚ :=
  { heap := fun _ => 0,
    animator := ⟨[(0, ⟨0, linearTimeline⟩),
      (1, ⟨1, ⟨[(0, ⟨0, none⟩), (3, ⟨6, some StandardEasing.LINEAR⟩)]⟩⟩)]⟩ }

/-! ## Sequences of calls on the registry -/

/-- One call made by the client on the `Animator`, with its arguments and with
the clock values that the reads of `time_.getElapsed()` in it return. -/
inductive Call (V : Type) where
  | addKeyframe (var : Nat) (dt : ℚ) (value : V) (easing : BaseEasingPtr) (now : ℚ)
  | doTransition (var : Nat) (start end_ : V) (trans : ℚ × BaseEasingPtr) (now₁ now₂ : ℚ)
  | redoTransition (var : Nat) (end_ : V) (trans : ℚ × BaseEasingPtr) (now₀ now₁ now₂ : ℚ)
  | deleteAnimation (var : Nat)
  | update (now : ℚ)

namespace Animator

variable {V : Type}

/-- The effect of one call; only `update` can throw. -/
def call [Add V] [SMul ℚ V] (w : World V) : Call V → Except Exception (World V)
  | .addKeyframe var dt value easing now => .ok (addKeyframe w var dt value easing now)
  | .doTransition var start end_ tr now₁ now₂ =>
    .ok (doTransition w var start end_ tr now₁ now₂)
  | .redoTransition var end_ tr now₀ now₁ now₂ =>
    .ok (redoTransition w var end_ tr now₀ now₁ now₂)
  | .deleteAnimation var => .ok (deleteAnimation w var)
  | .update now => update w now

/-- A finite sequence of calls, stopped by the first exception. -/
def run [Add V] [SMul ℚ V] (w : World V) : List (Call V) → Except Exception (World V)
  | [] => .ok w
  | c :: cs =>
    match call w c with
    | .error err => .error err
    | .ok w' => run w' cs

/-- Every timeline of the registry has at least one keyframe. -/
def TimelinesNonEmpty (w : World V) : Prop :=
  ∀ e ∈ w.animator.animations_, e.2.keyframes_.keyframes_ ≠ []

end Animator

/-! ## Standard and composite easing functions (`standard_easing.h`, `standard_easing.cc`)

The results of these functions are `Option ℚ`: a finite value, or `none` for a
result that is not a finite number (an infinity or a NaN), which every later
operation of the expression keeps non-finite. -/

/-- The float division `a / b`: no finite value when `b` is zero. -/
def floatDiv (a b : ℚ) : Option ℚ :=
  if b = 0 then none else some (a / b)

/-- The part of `<cmath>` used by `StandardEasing`, which is not code of the
repository: `std::pow` (no finite value at a pole or outside its domain),
`std::sin` and the constant `M_PI`. -/
structure Libm where
  pow : ℚ → ℚ → Option ℚ
  sin : ℚ → ℚ
  M_PI : ℚ

namespace StandardEasing

/-- The enumeration `StandardEasing::Type`. -/
inductive Type_ where
  | NONE | LINEAR | QUADRATIC | POWER | SINE
  deriving DecidableEq, Repr

/-- The enumeration `StandardEasing::Subtype`. -/
inductive Subtype where
  | IN | OUT | INOUT | OUTIN
  deriving DecidableEq, Repr

end StandardEasing

/-- The class `StandardEasing`: its data members. -/
structure StandardEasing where
  type_ : StandardEasing.Type_
  subtype_ : StandardEasing.Subtype
  power_ : ℚ
  subpower_ : ℚ
  straight_ : ℚ
  freq_ : ℚ

namespace StandardEasing

/-- The constructor `StandardEasing(Type t, Subtype st)`. -/
def ofTypeSubtype (m : Libm) (t : Type_) (st : Subtype) : StandardEasing :=
  { type_ := t, subtype_ := st, power_ := 0, subpower_ := 1, straight_ := 0,
    freq_ := m.M_PI / 2 }

/-- The method `StandardEasing::getQuadratic`. -/
def getQuadratic (self : StandardEasing) (x : ℚ) : Option ℚ :=
  floatDiv (x * (x + self.straight_)) (1 + self.straight_)

/-- The method `StandardEasing::getPower`. -/
def getPower (m : Libm) (self : StandardEasing) (x : ℚ) : Option ℚ :=
  match m.pow x self.subpower_, m.pow x (self.power_ - self.subpower_) with
  | some a, some b => floatDiv (a * (b + self.straight_)) (1 + self.straight_)
  | _, _ => none

/-- The method `StandardEasing::getSine`. -/
def getSine (m : Libm) (self : StandardEasing) (x : ℚ) : Option ℚ :=
  floatDiv (m.sin (self.freq_ * x)) (m.sin self.freq_)

/-- The method `StandardEasing::simpleGet`. -/
def simpleGet (m : Libm) (self : StandardEasing) (x : ℚ) : Option ℚ :=
  match self.type_ with
  | .NONE => some 0
  | .LINEAR => some (getLinear x)
  | .QUADRATIC => self.getQuadratic x
  | .POWER => self.getPower m x
  | .SINE => self.getSine m x

/-- The method `StandardEasing::get`. -/
def get (m : Libm) (self : StandardEasing) (x : ℚ) : Option ℚ :=
  match self.type_ with
  | .NONE => some 0
  | .LINEAR => some (getLinear x)
  | _ =>
    match self.subtype_ with
    | .IN => self.simpleGet m x
    | .OUT => (self.simpleGet m (1 - x)).map (fun g => 1 - g)
    | .INOUT =>
      if x ≤ 1 / 2 then (self.simpleGet m (2 * x)).map (fun g => 1 / 2 * g)
      else (self.simpleGet m (2 - 2 * x)).map (fun g => 1 / 2 * (2 - g))
    | .OUTIN =>
      if x ≤ 1 / 2 then (self.simpleGet m (1 - 2 * x)).map (fun g => 1 / 2 * (1 - g))
      else (self.simpleGet m (2 * x - 1)).map (fun g => 1 / 2 * (1 + g))

end StandardEasing

/-- A math library for the examples.  Its `pow` is exact at integer exponents,
with the pole at base zero and negative exponent; at other exponents, where the
power is irrational in general, it is a first-order approximation for a positive
base and has no finite value for a negative one.  Its `sin` is the Taylor
polynomial of degree seven and its `M_PI` is `355/113`. -/
def exampleLibm : Libm where
  pow x y :=
    if y.den = 1 then
      (if x = 0 ∧ y < 0 then none else some (x ^ y.num))
    else if x < 0 then none
    else if x = 0 then (if y < 0 then none else some 0)
    else some (x ^ ⌊y⌋ * (1 + (y - ⌊y⌋) * (x - 1)))
  sin x := x - x ^ 3 / 6 + x ^ 5 / 120 - x ^ 7 / 5040
  M_PI := 355 / 113

/-- The class `CompositeEasing`: the checkpoints `(x, f)` by time. -/
structure CompositeEasing where
  functions_ : StdMap ℚ (ℚ × BaseEasingPtr) := []

namespace CompositeEasing

/-- The method `CompositeEasing::add`: `functions_[t] = std::make_pair(x, f)`. -/
def add (self : CompositeEasing) (t x : ℚ) (f : BaseEasingPtr) : CompositeEasing :=
  ⟨StdMap.assign self.functions_ t (x, f)⟩

/-- The method `CompositeEasing::get`.  The result is `none` where the model
gives the source no value: the divisor `t1 - t0` is zero, or the easing of the
checkpoint is an empty pointer, which the source dereferences. -/
def get (self : CompositeEasing) (t : ℚ) : Option ℚ :=
  if self.functions_.isEmpty then some 1
  else
    let i := StdMap.lower_bound self.functions_ t
    if hend : i.val = self.functions_.length then some 1
    else
      let ci := self.functions_.get ⟨i.val, by omega⟩
      let t1 := ci.1
      let x1 := ci.2.1
      let p : ℚ × ℚ :=
        if hbegin : i.val = 0 then (0, 0)
        else
          let cj := self.functions_.get ⟨i.val - 1, by omega⟩
          (cj.1, cj.2.1)
      let t0 := p.1
      let x0 := p.2
      match floatDiv (t - t0) (t1 - t0), ci.2.2 with
      | some normalized_t, some f => some (x0 + (x1 - x0) * f.get normalized_t)
      | _, _ => none

end CompositeEasing

/-! ## The transition store (`transition_store.h`) -/

/-- The class `TransitionStore`: the transitions (length of time, easing) by
name.  The member `properties_` is used by `setProperties` only. -/
structure TransitionStore where
  transitions_ : StdMap String (ℚ × BaseEasingPtr) := []

namespace TransitionStore

/-- The method `TransitionStore::add`: `transitions_[name] = (len, easing)`. -/
def add (self : TransitionStore) (name : String) (len : ℚ) (easing : BaseEasingPtr) :
    TransitionStore :=
  ⟨StdMap.assign self.transitions_ name (len, easing)⟩

/-- The method `TransitionStore::get`. -/
def get (self : TransitionStore) (name : String) : Except Exception (ℚ × BaseEasingPtr) :=
  match StdMap.find self.transitions_ name with
  | none => .error (.Base
      ("Transition \x27" ++ name ++ "\x27 cannot be found in transition store (::get)."))
  | some tr => .ok tr

/-- A finite sequence of calls of `add`, in order. -/
def addAll (self : TransitionStore) : List (String × ℚ × BaseEasingPtr) → TransitionStore
  | [] => self
  | a :: rest => addAll (self.add a.1 a.2.1 a.2.2) rest

end TransitionStore

/-- A composite easing with the single checkpoint `(1/2, 1/3)`, reached with
the linear easing. -/
def halfComposite : CompositeEasing :=
  ⟨[(1 / 2, (1 / 3, some StandardEasing.LINEAR))]⟩

namespace StandardEasing

/-- The constructor `StandardEasing(Type t, float power = 0)`. -/
def ofTypePower (m : Libm) (t : Type_) (power : ℚ) : StandardEasing :=
  { type_ := t, subtype_ := .IN, power_ := power, subpower_ := 1, straight_ := 0,
    freq_ := m.M_PI / 2 }

/-- The method `StandardEasing::setPower`. -/
def setPower (self : StandardEasing) (p : ℚ) : StandardEasing :=
  { self with power_ := p }

/-- The method `StandardEasing::setSubpower`. -/
def setSubpower (self : StandardEasing) (p : ℚ) : StandardEasing :=
  { self with subpower_ := p }

/-- The method `StandardEasing::setStraightness`. -/
def setStraightness (self : StandardEasing) (s : ℚ) : StandardEasing :=
  { self with straight_ := s }

/-- The method `StandardEasing::setFrequency`. -/
def setFrequency (self : StandardEasing) (w : ℚ) : StandardEasing :=
  { self with freq_ := w }

end StandardEasing

/-! ## Strings and the transition text (`utils/misc.cc`, `transition_store.cc`) -/

/-- The type `std::string`, as the list of its characters. -/
abbrev Str := List Char

namespace Str

/-- The call `s.find(c)`: the position of the first `c`, `none` for `npos`. -/
def find : Str → Char → Option Nat
  | [], _ => none
  | a :: s, c => if a = c then some 0 else (find s c).map (fun k => k + 1)

/-- The call `s.find_first_not_of(set)`, `none` for `npos`. -/
def find_first_not_of : Str → Str → Option Nat
  | [], _ => none
  | a :: s, set => if a ∈ set then (find_first_not_of s set).map (fun k => k + 1) else some 0

/-- The call `s.find_last_not_of(set)`, `none` for `npos`. -/
def find_last_not_of : Str → Str → Option Nat
  | [], _ => none
  | a :: s, set =>
    match find_last_not_of s set with
    | some j => some (j + 1)
    | none => if a ∈ set then none else some 0

/-- The call `s.substr(pos, n)`, which throws `std::out_of_range` when `pos`
is beyond the size of `s`. -/
def substr (s : Str) (pos n : Nat) : Except Exception Str :=
  if pos > s.length then .error (.Foreign "std::out_of_range")
  else .ok ((s.drop pos).take n)

end Str

/-- The characters removed by `trim`: the string `" \t\n\r"`. -/
def whitespace : Str := [' ', '\t', '\n', '\r']

/-- The function `trim` of `utils/misc.cc`.  The position `i` is within the
string, so that `s.substr(i, j - i + 1)` does not throw; `j` is found whenever
`i` is. -/
def trim (s : Str) : Str :=
  match Str.find_first_not_of s whitespace with
  | none => []
  | some i =>
    match Str.find_last_not_of s whitespace with
    | some j => (s.drop i).take (j - i + 1)
    | none => s.drop i

/-- One child of the property tree read by `TransitionStore::setProperties`: its
key, its attribute `<xmlattr>.length` as a `float` (`none` when
`get<float>` throws) and its data string. -/
structure PropertyEntry where
  name : String
  length : Option ℚ
  value : Str

namespace TransitionStore

/-- The loop of `setProperties` that splits the parameter string, to which a
comma was appended, at the commas and converts every piece with
`boost::lexical_cast<float>`, which is the parameter `lexical_cast` (`none`
when it throws). -/
def parseParams (lexical_cast : Str → Option ℚ) : Str → Str → List ℚ → Except Exception (List ℚ)
  | [], _, params => .ok params
  | c :: rest, crt, params =>
    if c = ',' then
      match lexical_cast crt with
      | none => .error (.Foreign "boost::bad_lexical_cast")
      | some v => parseParams lexical_cast rest [] (params ++ [v])
    else parseParams lexical_cast rest (crt ++ [c]) params

/-- The `switch (type)` of `setProperties` that checks the number of parameters
and calls the setters of the easing. -/
def applyParams (name : String) (type : StandardEasing.Type_) (easing : StandardEasing)
    (params : List ℚ) : Except Exception StandardEasing :=
  match type with
  | .NONE | .LINEAR =>
    if params ≠ [] then
      .error (.Base ("Parameters for linear or no transition for " ++ name ++ "."))
    else .ok easing
  | .QUADRATIC =>
    match params with
    | [] => .ok easing
    | p0 :: _ =>
      if params.length > 1 then
        .error (.Base ("Too many parameters for quadratic transition " ++ name ++ "."))
      else .ok (easing.setStraightness p0)
  | .POWER =>
    match params with
    | [] => .ok easing
    | p0 :: rest =>
      if params.length > 3 then
        .error (.Base ("Too many parameters for power transition " ++ name ++ "."))
      else
        let easing := easing.setPower p0
        match rest with
        | [] => .ok easing
        | p1 :: rest₂ =>
          let easing := easing.setSubpower p1
          match rest₂ with
          | [] => .ok easing
          | p2 :: _ => .ok (easing.setStraightness p2)
  | .SINE =>
    match params with
    | [] => .ok easing
    | p0 :: _ =>
      if params.length > 1 then
        .error (.Base ("Too many parameters for sine transition " ++ name ++ "."))
      else .ok (easing.setFrequency p0)

/-- The first part of the body of the loop of `setProperties`: the data string
`value` is trimmed and split into the strings `type_str`, `subtype_str` and
`type_params_str`, returned in this order.  Where both parentheses are found
and the closing one is the last character, the opening one is before it, so
that the unsigned difference `pos_paren2 - pos_paren1 - 1` does not wrap. -/
def splitDefinition (name : String) (value : Str) : Except Exception (Str × Str × Str) :=
  let def_ := trim value
  match Str.find def_ ',' with
  | some pos_comma =>
    let type_str := trim (def_.take pos_comma)
    let subtype_str := trim (def_.drop (pos_comma + 1))
    match Str.find type_str '(', Str.find type_str ')' with
    | some pos_paren1, some pos_paren2 =>
      if pos_paren2 + 1 ≠ type_str.length then
        .error (.Base ("Malformed transition definition for " ++ name ++ ": \x27"
          ++ String.mk def_ ++ "\x27 (TransitionStore::setProperties)."))
      else
        let type_str := trim (type_str.drop pos_paren1)
        match Str.substr type_str (pos_paren1 + 1) (pos_paren2 - pos_paren1 - 1) with
        | .error err => .error err
        | .ok sub => .ok (type_str, subtype_str, trim sub)
    | _, _ => .ok (type_str, subtype_str, [])
  | none => .ok (def_, ['i', 'n'], [])

/-- The chain of comparisons of `type_str` with the shape keywords. -/
def matchType (name : String) (type_str : Str) : Except Exception StandardEasing.Type_ :=
  if type_str = "none".toList then .ok .NONE
  else if type_str = "linear".toList then .ok .LINEAR
  else if type_str = "quadratic".toList then .ok .QUADRATIC
  else if type_str = "power".toList then .ok .POWER
  else if type_str = "sine".toList then .ok .SINE
  else .error (.Base ("Unknown transition type for " ++ name ++ "\x27" ++ String.mk type_str
    ++ "\x27 (TransitionStore::setProperties)."))

/-- The chain of comparisons of `subtype_str` with the phase keywords. -/
def matchSubtype (name : String) (subtype_str : Str) :
    Except Exception StandardEasing.Subtype :=
  if subtype_str = "in".toList then .ok .IN
  else if subtype_str = "out".toList then .ok .OUT
  else if subtype_str = "inout".toList then .ok .INOUT
  else if subtype_str = "outin".toList then .ok .OUTIN
  else .error (.Base ("Unknown transition subtype for " ++ name ++ "\x27"
    ++ String.mk subtype_str ++ "\x27 (TransitionStore::setProperties)."))

/-- The body of the loop of `setProperties` from the data string to the easing
object handed to `add`. -/
def parseDefinition (m : Libm) (lexical_cast : Str → Option ℚ) (name : String) (value : Str) :
    Except Exception StandardEasing :=
  match splitDefinition name value with
  | .error err => .error err
  | .ok (type_str, subtype_str, type_params_str) =>
    match matchType name type_str with
    | .error err => .error err
    | .ok type =>
      match matchSubtype name subtype_str with
      | .error err => .error err
      | .ok subtype =>
        let easing := StandardEasing.ofTypeSubtype m type subtype
        if type_params_str ≠ [] then
          match parseParams lexical_cast (type_params_str ++ [',']) [] [] with
          | .error err => .error err
          | .ok params => applyParams name type easing params
        else .ok easing

/-- The method `TransitionStore::setProperties` on the children of the property
tree, in order.  The result is the store when the method returns or throws, and
the exception if it throws.  `up` is the conversion of the pointer to the
`StandardEasing` into a `BaseEasingPtr`. -/
def setProperties (m : Libm) (lexical_cast : Str → Option ℚ) (up : StandardEasing → BaseEasing)
    (self : TransitionStore) : List PropertyEntry → TransitionStore × Option Exception
  | [] => (self, none)
  | e :: rest =>
    if e.name = "<xmlcomment>" then setProperties m lexical_cast up self rest
    else
      match e.length with
      | none => (self, some (.Foreign "boost::property_tree::ptree_error"))
      | some len =>
        match parseDefinition m lexical_cast e.name e.value with
        | .error err => (self, some err)
        | .ok easing =>
          setProperties m lexical_cast up (self.add e.name len (some (up easing))) rest

/-- The keyword of a shape in the transition text. -/
def shapeKeyword : StandardEasing.Type_ → Str
  | .NONE => "none".toList
  | .LINEAR => "linear".toList
  | .QUADRATIC => "quadratic".toList
  | .POWER => "power".toList
  | .SINE => "sine".toList

/-- The keyword of a phase in the transition text. -/
def phaseKeyword : StandardEasing.Subtype → Str
  | .IN => "in".toList
  | .OUT => "out".toList
  | .INOUT => "inout".toList
  | .OUTIN => "outin".toList

/-- The shape clause of a trimmed definition: the text before the first comma,
trimmed, or the whole definition when it has no comma. -/
def shapeClause (def_ : Str) : Str :=
  match Str.find def_ ',' with
  | some pos_comma => trim (def_.take pos_comma)
  | none => def_

/-- The phase clause of a trimmed definition with a comma: the text after the
first comma, trimmed. -/
def phaseClause (def_ : Str) : Option Str :=
  match Str.find def_ ',' with
  | some pos_comma => some (trim (def_.drop (pos_comma + 1)))
  | none => none

end TransitionStore

/-! ## Facts about `std::map` -/

namespace StdMap

variable {K α : Type} [LinearOrder K]

theorem lower_bound_nil (k : K) : (lower_bound ([] : StdMap K α) k).val = 0 := rfl

theorem lower_bound_cons (e : K × α) (rest : StdMap K α) (k : K) :
    (lower_bound (e :: rest) k).val = if e.1 < k then (lower_bound rest k).val + 1 else 0 := by
  simp only [lower_bound]
  split <;> simp

/-- The result of `lower_bound(k)` is `end()` exactly when every key is below `k`. -/
theorem lower_bound_eq_length_iff (m : StdMap K α) (k : K) :
    (lower_bound m k).val = m.length ↔ ∀ e ∈ m, e.1 < k := by
  induction m with
  | nil => simp [lower_bound_nil]
  | cons e rest ih =>
    rw [lower_bound_cons]
    by_cases h : e.1 < k
    · simp [h, ih]
    · simp [h]

theorem lower_bound_append_of_lt (pre m : StdMap K α) (k : K) (h : ∀ e ∈ pre, e.1 < k) :
    (lower_bound (pre ++ m) k).val = pre.length + (lower_bound m k).val := by
  induction pre with
  | nil => simp
  | cons e rest ih =>
    have he : e.1 < k := h e (by simp)
    have hr : ∀ x ∈ rest, x.1 < k := fun x hx => h x (by simp [hx])
    rw [List.cons_append, lower_bound_cons, if_pos he, ih hr]
    simp only [List.length_cons]; omega

/-- In a sorted map every key before the last element is below the last key. -/
theorem Sorted.lt_last {pre : StdMap K α} {kn : K} {vn : α}
    (hs : Sorted (pre ++ [(kn, vn)])) : ∀ e ∈ pre, e.1 < kn := by
  intro e he
  unfold Sorted at hs
  rw [List.pairwise_append] at hs
  exact hs.2.2 e he (kn, vn) (by simp)

/-- With a sorted map, `lower_bound(k)` is `end()` exactly when the last key is
below `k`. -/
theorem lower_bound_eq_length_iff_last (pre : StdMap K α) (kn : K) (vn : α) (k : K)
    (hs : Sorted (pre ++ [(kn, vn)])) :
    (lower_bound (pre ++ [(kn, vn)]) k).val = (pre ++ [(kn, vn)]).length ↔ kn < k := by
  rw [lower_bound_eq_length_iff]
  constructor
  · intro h
    exact h (kn, vn) (by simp)
  · intro h e he
    rcases List.mem_append.mp he with h1 | h1
    · exact lt_trans (hs.lt_last e h1) h
    · simp only [List.mem_singleton] at h1
      rw [h1]; exact h

theorem find_eq_none_iff (m : StdMap K α) (k : K) : find m k = none ↔ ∀ e ∈ m, e.1 ≠ k := by
  induction m with
  | nil => simp [find]
  | cons e rest ih =>
    simp only [find]
    by_cases h : e.1 = k
    · simp [h]
    · simp [h, ih]

theorem find_erase_self (m : StdMap K α) (k : K) : find (erase m k) k = none := by
  rw [find_eq_none_iff]
  intro e he
  simpa [erase] using (List.mem_filter.mp he).2

theorem erase_of_find_eq_none (m : StdMap K α) (k : K) (h : find m k = none) :
    erase m k = m := by
  rw [find_eq_none_iff] at h
  unfold erase
  rw [List.filter_eq_self]
  intro e he
  simpa using h e he

theorem find_assign_self (m : StdMap K α) (k : K) (v : α) : find (assign m k v) k = some v := by
  induction m with
  | nil => simp [assign, find]
  | cons e rest ih =>
    simp only [assign]
    split
    · simp [find]
    · split
      · rename_i h
        simp [find, ne_of_lt h, ih]
      · simp [find]

theorem find_modify_self (m : StdMap K α) (k : K) (f : α → α) :
    find (modify m k f) k = (find m k).map f := by
  induction m with
  | nil => simp [modify, find]
  | cons e rest ih =>
    simp only [modify, find]
    by_cases h : e.1 = k
    · simp [h, find]
    · simp [h, find, ih]

theorem find_of_mem_sorted (m : StdMap K α) (hs : Sorted m) (e : K × α) (he : e ∈ m) :
    find m e.1 = some e.2 := by
  induction m with
  | nil => simp at he
  | cons a rest ih =>
    unfold Sorted at hs
    rw [List.pairwise_cons] at hs
    rcases List.mem_cons.mp he with h | h
    · subst h; simp [find]
    · have hlt : a.1 < e.1 := hs.1 e h
      simp only [find, if_neg (ne_of_lt hlt)]
      exact ih hs.2 h

/-- A sorted map holds one element per key. -/
theorem eq_of_mem_sorted_of_key_eq (m : StdMap K α) (hs : Sorted m) (a b : K × α)
    (ha : a ∈ m) (hb : b ∈ m) (hk : a.1 = b.1) : a = b := by
  have h1 := find_of_mem_sorted m hs a ha
  have h2 := find_of_mem_sorted m hs b hb
  rw [hk, h2] at h1
  have : b.2 = a.2 := Option.some.inj h1
  exact Prod.ext hk this.symm

end StdMap

/-! ## Facts about timelines -/

namespace Animation

variable {V : Type}

/-- The branch `i == keyframes_.end()` of `get`. -/
theorem get_of_lower_bound_end [Add V] [SMul ℚ V] (self : Animation V) (t : ℚ)
    (hne : self.keyframes_ ≠ [])
    (hlb : (StdMap.lower_bound self.keyframes_ t).val = self.keyframes_.length) :
    self.get t = self.getTarget := by
  have hemp : self.keyframes_.isEmpty = false := by
    cases h : self.keyframes_ with
    | nil => exact absurd h hne
    | cons a b => rfl
  unfold get
  simp only [hemp, Bool.false_eq_true, if_false]
  rw [dif_pos hlb]

/-- The branch `i == keyframes_.begin()` of `get`. -/
theorem get_of_lower_bound_begin [Add V] [SMul ℚ V] (e : ℚ × Keyframe V)
    (rest : StdMap ℚ (Keyframe V)) (t : ℚ)
    (hlb : (StdMap.lower_bound (e :: rest) t).val = 0) :
    (Animation.mk (e :: rest)).get t = .ok e.2.value := by
  unfold get
  simp only [List.isEmpty_cons, Bool.false_eq_true, if_false]
  rw [dif_neg (by rw [hlb]; simp), if_pos hlb]
  rfl

/-- The interpolating branch of `get`. -/
theorem get_of_lower_bound_succ [Add V] [SMul ℚ V] (self : Animation V) (t : ℚ) (n : Nat)
    (kj ki : ℚ × Keyframe V)
    (hlb : (StdMap.lower_bound self.keyframes_ t).val = n + 1)
    (hj : self.keyframes_[n]? = some kj) (hi : self.keyframes_[n + 1]? = some ki) :
    self.get t = .ok (interpolate kj ki t) := by
  have hlen : n + 1 < self.keyframes_.length := (List.getElem?_eq_some.mp hi).1
  have hne : self.keyframes_.isEmpty = false := by
    cases h : self.keyframes_ with
    | nil => rw [h] at hlen; simp at hlen
    | cons a b => rfl
  have e1 : self.keyframes_.get ⟨(StdMap.lower_bound self.keyframes_ t).val, by omega⟩ = ki := by
    simp only [List.get_eq_getElem, hlb]
    exact (List.getElem?_eq_some.mp hi).2
  have e2 : self.keyframes_.get
      ⟨(StdMap.lower_bound self.keyframes_ t).val - 1, by omega⟩ = kj := by
    simp only [List.get_eq_getElem, hlb, Nat.add_sub_cancel]
    exact (List.getElem?_eq_some.mp hj).2
  unfold get
  simp only [hne, Bool.false_eq_true, if_false]
  rw [dif_neg (by omega), if_neg (by omega)]
  simp only [e1, e2, interpolate]

/-- Between two neighbouring keyframes `kj` and `ki` of a timeline, with the
earlier keys all below `t` and `t` not above the key of `ki`, `get` interpolates
between the two. -/
theorem get_between [Add V] [SMul ℚ V] (pre post : StdMap ℚ (Keyframe V))
    (kj ki : ℚ × Keyframe V) (t : ℚ)
    (hpre : ∀ e ∈ pre, e.1 < t) (hj : kj.1 < t) (hi : t ≤ ki.1) :
    (Animation.mk (pre ++ kj :: ki :: post)).get t = .ok (interpolate kj ki t) := by
  apply get_of_lower_bound_succ _ t pre.length kj ki
  · show (StdMap.lower_bound (pre ++ kj :: ki :: post) t).val = pre.length + 1
    rw [StdMap.lower_bound_append_of_lt _ _ _ hpre, StdMap.lower_bound_cons, if_pos hj,
      StdMap.lower_bound_cons, if_neg (not_lt.mpr hi)]
  · show (pre ++ kj :: ki :: post)[pre.length]? = some kj
    rw [List.getElem?_append_right (le_refl _)]
    simp
  · show (pre ++ kj :: ki :: post)[pre.length + 1]? = some ki
    rw [List.getElem?_append_right (by omega)]
    simp

/-- A timeline with a keyframe yields a value at every time: `get` does not throw. -/
theorem get_ok_of_ne_nil [Add V] [SMul ℚ V] (self : Animation V) (t : ℚ)
    (hne : self.keyframes_ ≠ []) : ∃ v, self.get t = .ok v := by
  obtain ⟨kfs⟩ := self
  cases kfs with
  | nil => exact absurd rfl hne
  | cons a rest =>
    unfold get
    simp only [List.isEmpty_cons, Bool.false_eq_true, if_false]
    split
    · simp only [getTarget]
      cases h : (a :: rest).getLast? with
      | none => simp at h
      | some e => exact ⟨_, rfl⟩
    · split
      · exact ⟨_, rfl⟩
      · exact ⟨_, rfl⟩

theorem get_eq_target_of_not_running [Add V] [SMul ℚ V] (self : Animation V) (t : ℚ)
    (hne : self.keyframes_ ≠ []) (h : self.isRunning t = false) :
    self.get t = self.getTarget := by
  apply get_of_lower_bound_end _ _ hne
  simpa [isRunning] using h

/-- On a sorted timeline `isRunning(t)` holds exactly up to the last key, the
last key included. -/
theorem isRunning_eq_true_iff (pre : StdMap ℚ (Keyframe V)) (tn : ℚ) (kn : Keyframe V) (t : ℚ)
    (hs : StdMap.Sorted (pre ++ [(tn, kn)])) :
    (Animation.mk (pre ++ [(tn, kn)])).isRunning t = true ↔ t ≤ tn := by
  unfold isRunning
  simp only [bne_iff_ne, ne_eq]
  rw [StdMap.lower_bound_eq_length_iff_last pre tn kn t hs, not_lt]

theorem stepTimeline_get_one : stepTimeline.get 1 = .ok 0 := by
  have h := get_between (V := ℚ) [] [] (0, ⟨0, none⟩) (1, ⟨1, none⟩) 1
    (by simp) (by norm_num) (by norm_num)
  simpa [interpolate, stepTimeline] using h

end Animation

/-! ## Facts about the registry -/

namespace Animator

variable {V : Type}

/-- The second loop of `update` keeps exactly the running entries, unchanged and
in their order. -/
theorem eraseEnded_eq_filter (m : StdMap Nat (AnimationData V)) (t : ℚ) :
    eraseEnded m t = m.filter (fun e => e.2.isRunning t) := by
  induction m with
  | nil => rfl
  | cons e rest ih =>
    simp only [eraseEnded, List.filter_cons, ih]
    cases h : e.2.isRunning t <;> simp

/-- The timeline of `var` after `addKeyframe`: a new one with the single keyframe
when `var` was not animated, the old one with the keyframe assigned otherwise. -/
theorem find_addKeyframe (w : World V) (var : Nat) (dt : ℚ) (value : V)
    (easing : BaseEasingPtr) (now : ℚ) :
    StdMap.find (addKeyframe w var dt value easing now).animator.animations_ var =
      some (match StdMap.find w.animator.animations_ var with
        | none => ⟨var, ⟨[(now + dt, ⟨value, easing⟩)]⟩⟩
        | some d =>
          { d with keyframes_ := d.keyframes_.addKeyframe (now + dt) ⟨value, easing⟩ }) := by
  unfold addKeyframe
  simp only [StdMap.find_modify_self, StdMap.count, StdMap.insert]
  cases h : StdMap.find w.animator.animations_ var with
  | none => simp [StdMap.find_assign_self, Animation.addKeyframe, StdMap.assign]
  | some d => simp [h]

theorem heap_addKeyframe (w : World V) (var : Nat) (dt : ℚ) (value : V)
    (easing : BaseEasingPtr) (now : ℚ) :
    (addKeyframe w var dt value easing now).heap =
      if dt = 0 then Function.update w.heap var value else w.heap := rfl

/-- The first loop of `update` on timelines that all have a keyframe: it does
not throw, it leaves the variables of no entry alone, and, the entries pointing
to different variables, each variable holds the value of its timeline at `t`. -/
theorem updateValues_spec [Add V] [SMul ℚ V] (m : StdMap Nat (AnimationData V)) (t : ℚ) :
    ∀ (heap : Nat → V), (∀ e ∈ m, e.2.keyframes_.keyframes_ ≠ []) →
    ∃ heap', updateValues m heap t = .ok heap' ∧
      (∀ x, (∀ e ∈ m, e.2.variable_ ≠ x) → heap' x = heap x) ∧
      (m.Pairwise (fun a b => a.2.variable_ ≠ b.2.variable_) →
        ∀ e ∈ m, e.2.keyframes_.get t = .ok (heap' e.2.variable_)) := by
  induction m with
  | nil =>
    intro heap _
    exact ⟨heap, rfl, fun _ _ => rfl, fun _ e he => by simp at he⟩
  | cons a rest ih =>
    intro heap hne
    obtain ⟨v, hv⟩ := Animation.get_ok_of_ne_nil a.2.keyframes_ t (hne a (by simp))
    obtain ⟨heap', h1, h2, h3⟩ := ih (Function.update heap a.2.variable_ v)
      (fun e he => hne e (by simp [he]))
    refine ⟨heap', ?_, ?_, ?_⟩
    · simp only [updateValues, AnimationData.update, hv, h1]
    · intro x hx
      rw [h2 x (fun e he => hx e (by simp [he]))]
      exact Function.update_noteq (Ne.symm (hx a (by simp))) _ _
    · intro hpw e he
      rw [List.pairwise_cons] at hpw
      rcases List.mem_cons.mp he with h | h
      · subst h
        rw [h2 _ (fun e' he' => Ne.symm (hpw.1 e' he')), Function.update_same, hv]
      · exact h3 hpw.2 e h

theorem halfwayWorld_getRemaining : getRemaining halfwayWorld 0 (1 / 2) = 1 / 2 := by
  norm_num [getRemaining, halfwayWorld, StdMap.find, Animation.getRemaining, linearTimeline]

end Animator

/-! ## The claims -/

namespace Animator

variable {V : Type}

/-- C1, as stated, fails: in `halfwayWorld` the variable `x` is animated with
`1/2` of its transition remaining and holds `1/2`; `redoTransition(&x, 2,
(3/10, linear))` at time `1/2` shortens the length to `0` and stores `2` in `x`. -/
theorem redoTransition_continuity_counterexample :
    isAnimated halfwayWorld 0 = true ∧ halfwayWorld.heap 0 = 1 / 2 ∧
    (redoTransition halfwayWorld 0 2 (3 / 10, some StandardEasing.LINEAR)
      (1 / 2) (1 / 2) (1 / 2)).heap 0 = 2 ∧
    (redoTransition halfwayWorld 0 2 (3 / 10, some StandardEasing.LINEAR)
      (1 / 2) (1 / 2) (1 / 2)).heap 0 ≠ halfwayWorld.heap 0 := by
  have han : isAnimated halfwayWorld 0 = true := rfl
  have hheap : halfwayWorld.heap 0 = 1 / 2 := by simp [halfwayWorld]
  have h : (redoTransition halfwayWorld 0 2 (3 / 10, some StandardEasing.LINEAR)
      (1 / 2) (1 / 2) (1 / 2)).heap 0 = 2 := by
    unfold redoTransition
    simp only [han, halfwayWorld_getRemaining, if_true]
    norm_num
  refine ⟨han, hheap, h, ?_⟩
  rw [h, hheap]
  norm_num

/-- C1, amended: for a variable that has a timeline in the registry,
`redoTransition(var, end, (duration, easing))` leaves the stored value of the
variable as it was when `duration` exceeds the remaining time of that timeline,
and stores `end` in the variable otherwise.  The clock values are arbitrary. -/
theorem redoTransition_stored_value (w : World V) (var : Nat) (end_ : V) (duration : ℚ)
    (easing : BaseEasingPtr) (now₀ now₁ now₂ : ℚ) (h : isAnimated w var = true) :
    (redoTransition w var end_ (duration, easing) now₀ now₁ now₂).heap var =
      if duration - getRemaining w var now₀ > 0 then w.heap var else end_ := by
  unfold redoTransition
  simp only [h, if_true]
  by_cases hlen : duration - getRemaining w var now₀ > 0
  · have h1 : ¬ (duration - getRemaining w var now₀ < 0) := not_lt.mpr (le_of_lt hlen)
    simp only [h1, if_false, hlen, if_true, heap_addKeyframe]
    simp [ne_of_gt hlen, deleteAnimation]
  · have h2 : ¬ ((if duration - getRemaining w var now₀ < 0 then 0
        else duration - getRemaining w var now₀) > 0) := by
      split <;> simp_all
    simp only [h2, hlen, if_false]
    simp

/-- C1, amended, at the interrupted transition of the specification:
`redoTransition(&x, 2, (1, linear))` in `halfwayWorld`. -/
theorem redoTransition_stored_value_witness :
    isAnimated halfwayWorld 0 = true ∧
    (redoTransition halfwayWorld 0 2 (1, some StandardEasing.LINEAR) (1 / 2) (1 / 2) (1 / 2)).heap 0
      = if 1 - getRemaining halfwayWorld 0 (1 / 2) > 0 then halfwayWorld.heap 0 else 2 :=
  ⟨rfl, redoTransition_stored_value halfwayWorld 0 2 1 (some StandardEasing.LINEAR) (1 / 2) (1 / 2)
    (1 / 2) rfl⟩

end Animator

namespace Animation

variable {V : Type}

/-- C2, as stated, fails at `t = tn`: `stepTimeline` has the sorted keys `0 < 1`,
its last keyframe has the value `1` and no easing, and `get(1)` is `0`, the value
of the previous keyframe. -/
theorem get_at_last_keyframe_counterexample :
    StdMap.Sorted stepTimeline.keyframes_ ∧
    stepTimeline.keyframes_.getLast? = some (1, ⟨1, none⟩) ∧
    stepTimeline.get 1 = .ok 0 ∧ stepTimeline.get 1 ≠ .ok 1 := by
  refine ⟨by decide, rfl, stepTimeline_get_one, ?_⟩
  rw [stepTimeline_get_one]
  intro h
  injection h with h
  norm_num at h

/-- C2, amended: on a timeline with strictly increasing times whose last
keyframe is `kn` at time `tn`, `get(t)` is the value of `kn` for every `t > tn`.
At `t = tn` the target-value fallback is not taken: with a single keyframe the
result is its value; with a previous keyframe `kp` the arrival easing of `kn` is
evaluated at `1`, so the result is the value of `kp` when `kn` has no easing,
`(1 - e(1))·value(kp) + e(1)·value(kn)` when it has the easing `e`, and hence the
value of `kn` when `e(1) = 1`. -/
theorem get_after_last [AddCommGroup V] [Module ℚ V]
    (pre : StdMap ℚ (Keyframe V)) (tn : ℚ) (kn : Keyframe V)
    (hs : StdMap.Sorted (pre ++ [(tn, kn)])) :
    (∀ t, tn < t → (Animation.mk (pre ++ [(tn, kn)])).get t = .ok kn.value) ∧
    (pre = [] → (Animation.mk (pre ++ [(tn, kn)])).get tn = .ok kn.value) ∧
    (∀ kp, pre.getLast? = some kp →
      (kn.easing = none → (Animation.mk (pre ++ [(tn, kn)])).get tn = .ok kp.2.value) ∧
      (∀ e, kn.easing = some e →
        (Animation.mk (pre ++ [(tn, kn)])).get tn
          = .ok ((1 - e.get 1) • kp.2.value + e.get 1 • kn.value)) ∧
      (∀ e, kn.easing = some e → e.get 1 = 1 →
        (Animation.mk (pre ++ [(tn, kn)])).get tn = .ok kn.value)) := by
  refine ⟨?_, ?_, ?_⟩
  · intro t ht
    rw [get_of_lower_bound_end _ t (by simp)
      ((StdMap.lower_bound_eq_length_iff_last pre tn kn t hs).mpr ht)]
    simp [getTarget]
  · intro hpre
    subst hpre
    exact get_of_lower_bound_begin (tn, kn) [] tn
      (by rw [StdMap.lower_bound_cons, if_neg (lt_irrefl tn)])
  · intro kp hkp
    obtain ⟨pre', rfl⟩ : ∃ pre', pre = pre' ++ [kp] := by
      rcases List.eq_nil_or_concat pre with h | ⟨l, b, h⟩
      · subst h; simp at hkp
      · subst h; simp at hkp; subst hkp; exact ⟨l, by simp⟩
    have hlt : kp.1 < tn := hs.lt_last kp (by simp)
    have hpre' : ∀ e ∈ pre', e.1 < tn := fun e he => hs.lt_last e (by simp [he])
    have hget := get_between pre' [] kp (tn, kn) tn hpre' hlt (le_refl tn)
    have hlist : pre' ++ [kp] ++ [(tn, kn)] = pre' ++ kp :: (tn, kn) :: [] := by simp
    rw [hlist, hget]
    have hpos : tn - kp.1 > 0 := sub_pos.mpr hlt
    have hne : tn - kp.1 ≠ 0 := ne_of_gt hpos
    refine ⟨?_, ?_, ?_⟩
    · intro hnone
      simp [interpolate, hnone]
    · intro e he
      simp [interpolate, he, hpos, hne]
    · intro e he h1
      simp [interpolate, he, hpos, hne, h1]

/-- C2, amended, on the two keyframes of `stepTimeline`: after the last keyframe,
at time `2`, `get` is the last value `1`. -/
theorem get_after_last_witness :
    StdMap.Sorted ([(0, ⟨0, none⟩)] ++ [((1 : ℚ), (⟨1, none⟩ : Keyframe ℚ))]) ∧
    (Animation.mk ([(0, ⟨0, none⟩)] ++ [((1 : ℚ), (⟨1, none⟩ : Keyframe ℚ))])).get 2 = .ok 1 :=
  ⟨by decide,
   (get_after_last [(0, ⟨0, none⟩)] 1 ⟨1, none⟩ (by decide)).1 2 (by norm_num)⟩

/-- C3: on a timeline with at least one keyframe, `get(t)` at a time `t` not
after the first keyframe is the value of the first keyframe, whatever the
easings and the other keyframes are. -/
theorem get_at_or_before_first [Add V] [SMul ℚ V]
    (e : ℚ × Keyframe V) (rest : StdMap ℚ (Keyframe V)) (t : ℚ) (h : t ≤ e.1) :
    (Animation.mk (e :: rest)).get t = .ok e.2.value :=
  get_of_lower_bound_begin e rest t
    (by rw [StdMap.lower_bound_cons, if_neg (not_lt.mpr h)])

/-- C3 on a timeline whose first keyframe carries an easing: at time `-1`, before
the first keyframe at `0`, `get` is the first value `5`. -/
theorem get_at_or_before_first_witness :
    (-1 : ℚ) ≤ 0 ∧
    (Animation.mk [((0 : ℚ), (⟨5, some StandardEasing.LINEAR⟩ : Keyframe ℚ)),
      (1, ⟨7, none⟩)]).get (-1) = .ok 5 :=
  ⟨by norm_num, get_at_or_before_first (0, ⟨5, some StandardEasing.LINEAR⟩) [(1, ⟨7, none⟩)] (-1)
    (by norm_num)⟩

end Animation

namespace Animator

variable {V : Type}

/-- C4: when every timeline of the registry has a keyframe, `update` at clock
time `now` returns normally and the registry it leaves is the old one restricted
to the entries whose timeline has `isRunning(now)`: those entries are removed for
which `isRunning(now)` is false, and the others stay as they were, keyframes
included. -/
theorem update_registry [Add V] [SMul ℚ V] (w : World V) (now : ℚ)
    (hne : ∀ e ∈ w.animator.animations_, e.2.keyframes_.keyframes_ ≠ []) :
    ∃ w', update w now = .ok w' ∧
      w'.animator.animations_ =
        w.animator.animations_.filter (fun e => e.2.keyframes_.isRunning now) := by
  obtain ⟨heap', h1, _, _⟩ := updateValues_spec w.animator.animations_ now w.heap hne
  refine ⟨{ heap := heap', animator := ⟨eraseEnded w.animator.animations_ now⟩ }, ?_, ?_⟩
  · simp only [update, h1]
  · simp only [eraseEnded_eq_filter]
    rfl

/-- C4 on `twoVariableWorld` at time `2`, where one timeline has ended and the
other is running. -/
theorem update_registry_witness :
    (∀ e ∈ twoVariableWorld.animator.animations_, e.2.keyframes_.keyframes_ ≠ []) ∧
    ∃ w', update twoVariableWorld 2 = .ok w' ∧
      w'.animator.animations_ =
        twoVariableWorld.animator.animations_.filter (fun e => e.2.keyframes_.isRunning 2) :=
  ⟨by simp [twoVariableWorld, linearTimeline],
   update_registry twoVariableWorld 2 (by simp [twoVariableWorld, linearTimeline])⟩

/-- C5: in a registry that is a map (keys strictly increasing), whose entries
point to the variable they are filed under and have a keyframe each, `update` at
clock time `now` returns normally; afterwards every variable whose entry was
removed (its timeline not running at `now`) is no longer animated and holds the
value of the last keyframe of that timeline, and every other variable of the
registry is still animated and holds `get(now)` of its timeline. -/
theorem update_values [Add V] [SMul ℚ V] (w : World V) (now : ℚ)
    (hs : StdMap.Sorted w.animator.animations_)
    (hvar : ∀ e ∈ w.animator.animations_, e.2.variable_ = e.1)
    (hne : ∀ e ∈ w.animator.animations_, e.2.keyframes_.keyframes_ ≠ []) :
    ∃ w', update w now = .ok w' ∧
      ∀ e ∈ w.animator.animations_,
        (e.2.isRunning now = false →
          isAnimated w' e.1 = false ∧
          (e.2.keyframes_.keyframes_.getLast?).map (fun kn => kn.2.value)
            = some (w'.heap e.1)) ∧
        (e.2.isRunning now = true →
          isAnimated w' e.1 = true ∧
          e.2.keyframes_.get now = .ok (w'.heap e.1)) := by
  obtain ⟨heap', h1, _, h3⟩ := updateValues_spec w.animator.animations_ now w.heap hne
  have hpw : w.animator.animations_.Pairwise (fun a b => a.2.variable_ ≠ b.2.variable_) := by
    unfold StdMap.Sorted at hs
    rw [List.pairwise_iff_forall_sublist] at hs ⊢
    intro a b hab
    have ha : a ∈ w.animator.animations_ := hab.subset (by simp)
    have hb : b ∈ w.animator.animations_ := hab.subset (by simp)
    rw [hvar a ha, hvar b hb]
    exact ne_of_lt (hs hab)
  have hval := h3 hpw
  refine ⟨{ heap := heap', animator := ⟨eraseEnded w.animator.animations_ now⟩ }, ?_, ?_⟩
  · simp only [update, h1]
  · intro e he
    have hget := hval e he
    rw [hvar e he] at hget
    constructor
    · intro hrun
      constructor
      · have hnone : StdMap.find
            (w.animator.animations_.filter (fun e => e.2.isRunning now)) e.1 = none := by
          rw [StdMap.find_eq_none_iff]
          intro e' he' hk
          have hmem := List.mem_filter.mp he'
          have : e' = e := StdMap.eq_of_mem_sorted_of_key_eq _ hs e' e hmem.1 he hk
          rw [this, hrun] at hmem
          exact absurd hmem.2 (by simp)
        simp only [isAnimated, eraseEnded_eq_filter, hnone]
        rfl
      · have ht := Animation.get_eq_target_of_not_running e.2.keyframes_ now (hne e he) hrun
        rw [ht] at hget
        simp only [Animation.getTarget] at hget
        cases hl : e.2.keyframes_.keyframes_.getLast? with
        | none => rw [hl] at hget; simp at hget
        | some kn =>
          rw [hl] at hget
          simp only [Except.ok.injEq] at hget
          simp [hget]
    · intro hrun
      refine ⟨?_, hget⟩
      simp only [isAnimated, eraseEnded_eq_filter]
      have hmem : e ∈ w.animator.animations_.filter (fun e => e.2.isRunning now) :=
        List.mem_filter.mpr ⟨he, hrun⟩
      have hsf : StdMap.Sorted (w.animator.animations_.filter (fun e => e.2.isRunning now)) :=
        List.Pairwise.sublist (List.filter_sublist _) hs
      rw [StdMap.find_of_mem_sorted _ hsf e hmem]
      rfl

/-- C5 on `twoVariableWorld` at time `2`: `x`, whose timeline ended at `1`, is
frozen at its target, and `y` is still animated. -/
theorem update_values_witness :
    StdMap.Sorted twoVariableWorld.animator.animations_ ∧
    (∀ e ∈ twoVariableWorld.animator.animations_, e.2.variable_ = e.1) ∧
    (∀ e ∈ twoVariableWorld.animator.animations_, e.2.keyframes_.keyframes_ ≠ []) ∧
    ∃ w', update twoVariableWorld 2 = .ok w' ∧
      ∀ e ∈ twoVariableWorld.animator.animations_,
        (e.2.isRunning 2 = false →
          isAnimated w' e.1 = false ∧
          (e.2.keyframes_.keyframes_.getLast?).map (fun kn => kn.2.value)
            = some (w'.heap e.1)) ∧
        (e.2.isRunning 2 = true →
          isAnimated w' e.1 = true ∧
          e.2.keyframes_.get 2 = .ok (w'.heap e.1)) :=
  ⟨by decide, by decide, by simp [twoVariableWorld, linearTimeline],
   update_values twoVariableWorld 2 (by decide) (by decide)
     (by simp [twoVariableWorld, linearTimeline])⟩

end Animator

namespace Animation

variable {V : Type}

/-- C6, as stated, fails at `t = tn`: `stepTimeline` has the sorted keys `0 < 1`,
its last keyframe is at time `1`, `1` is not strictly less than `1`, and
`isRunning(1)` is true. -/
theorem isRunning_at_last_keyframe_counterexample :
    StdMap.Sorted stepTimeline.keyframes_ ∧
    stepTimeline.keyframes_.getLast? = some (1, ⟨1, none⟩) ∧
    ¬ ((1 : ℚ) < 1) ∧ stepTimeline.isRunning 1 = true :=
  ⟨by decide, rfl, by norm_num, by decide⟩

/-- C6, amended: on a timeline with strictly increasing times whose last
keyframe is at time `tn`, `isRunning(t)` is true if and only if `t ≤ tn`; so
`isRunning(tn)` is true, and the second loop of `update` at clock time `t` keeps a
registry entry with this timeline exactly when `t ≤ tn`: the timeline is
discarded only once the clock is strictly past its last keyframe. -/
theorem isRunning_iff_le_last
    (pre : StdMap ℚ (Keyframe V)) (tn : ℚ) (kn : Keyframe V) (t : ℚ)
    (hs : StdMap.Sorted (pre ++ [(tn, kn)])) :
    ((Animation.mk (pre ++ [(tn, kn)])).isRunning t = true ↔ t ≤ tn) ∧
    (∀ (m : StdMap Nat (AnimationData V)) (k var : Nat),
      (k, AnimationData.mk var (Animation.mk (pre ++ [(tn, kn)]))) ∈ Animator.eraseEnded m t ↔
        ((k, AnimationData.mk var (Animation.mk (pre ++ [(tn, kn)]))) ∈ m ∧ t ≤ tn)) := by
  have h1 := isRunning_eq_true_iff pre tn kn t hs
  refine ⟨h1, ?_⟩
  intro m k var
  rw [Animator.eraseEnded_eq_filter, List.mem_filter]
  simp only [AnimationData.isRunning]
  rw [h1]

/-- C6, amended, on the two keyframes of `stepTimeline` at the time `1` of the
last one. -/
theorem isRunning_iff_le_last_witness :
    StdMap.Sorted ([(0, ⟨0, none⟩)] ++ [((1 : ℚ), (⟨1, none⟩ : Keyframe ℚ))]) ∧
    ((Animation.mk ([(0, ⟨0, none⟩)] ++ [((1 : ℚ), (⟨1, none⟩ : Keyframe ℚ))])).isRunning 1 = true
      ↔ (1 : ℚ) ≤ 1) :=
  ⟨by decide, (isRunning_iff_le_last [(0, ⟨0, none⟩)] 1 ⟨1, none⟩ 1 (by decide)).1⟩

end Animation

namespace Animator

variable {V : Type}

/-- C7: whatever the registry holds for `var`, after `doTransition(var, a, b,
(0, easing))` the variable holds `b` and is not animated.  No clock value is
used. -/
theorem doTransition_zero_duration (w : World V) (var : Nat) (a b : V)
    (easing : BaseEasingPtr) (now₁ now₂ : ℚ) :
    (doTransition w var a b (0, easing) now₁ now₂).heap var = b ∧
    isAnimated (doTransition w var a b (0, easing) now₁ now₂) var = false := by
  simp [doTransition, isAnimated, deleteAnimation, StdMap.find_erase_self]

/-- C10: when `var` has no timeline in the registry, `redoTransition(var, end,
trans)` leaves the same world (registry and stored values) as
`doTransition(var, v, end, trans)` with `v` the value stored in `var` before the
call, the two calls of `addKeyframe` reading the same clock values. -/
theorem redoTransition_eq_doTransition (w : World V) (var : Nat) (end_ : V)
    (trans : ℚ × BaseEasingPtr) (now₀ now₁ now₂ : ℚ) (h : isAnimated w var = false) :
    redoTransition w var end_ trans now₀ now₁ now₂ =
      doTransition w var (w.heap var) end_ trans now₁ now₂ := by
  have hfind : StdMap.find w.animator.animations_ var = none := by
    simpa [isAnimated] using h
  have hdel : deleteAnimation w var = w := by
    unfold deleteAnimation
    rw [StdMap.erase_of_find_eq_none _ _ hfind]
  unfold redoTransition doTransition
  simp only [h, hdel, Bool.false_eq_true, if_false]

/-- C10 in `initialWorld`, where nothing is animated. -/
theorem redoTransition_eq_doTransition_witness :
    isAnimated initialWorld 0 = false ∧
    redoTransition initialWorld 0 1 (1, some StandardEasing.LINEAR) 0 0 0 =
      doTransition initialWorld 0 (initialWorld.heap 0) 1 (1, some StandardEasing.LINEAR) 0 0 :=
  ⟨rfl, redoTransition_eq_doTransition initialWorld 0 1 (1, some StandardEasing.LINEAR) 0 0 0 rfl⟩

end Animator

/-! ## More facts about `std::map`, timelines and the registry -/

namespace StdMap

variable {K α : Type} [LinearOrder K]

/-- The assignment `m[k] = v` leaves the element of every other key alone. -/
theorem find_assign_of_ne (m : StdMap K α) (k k' : K) (v : α) (h : k' ≠ k) :
    find (assign m k v) k' = find m k' := by
  induction m with
  | nil => simp [assign, find, Ne.symm h]
  | cons e rest ih =>
    simp only [assign]
    split
    · simp [find, Ne.symm h]
    · split
      · simp only [find, ih]
      · rename_i h1 h2
        have hek : e.1 = k := le_antisymm (not_lt.mp h1) (not_lt.mp h2)
        simp [find, hek, Ne.symm h]

/-- The call `m.erase(k)` leaves the element of every other key alone. -/
theorem find_erase_of_ne (m : StdMap K α) (k k' : K) (h : k' ≠ k) :
    find (erase m k) k' = find m k' := by
  induction m with
  | nil => rfl
  | cons e rest ih =>
    have hcons : erase (e :: rest) k = if e.1 = k then erase rest k else e :: erase rest k := by
      unfold erase
      by_cases hek : e.1 = k <;> simp [List.filter_cons, hek]
    rw [hcons]
    by_cases hek : e.1 = k
    · have hne : e.1 ≠ k' := by rw [hek]; exact Ne.symm h
      rw [if_pos hek, ih]
      simp only [find, if_neg hne]
    · rw [if_neg hek]
      simp only [find, ih]

theorem assign_ne_nil (m : StdMap K α) (k : K) (v : α) : assign m k v ≠ [] := by
  cases m with
  | nil => simp [assign]
  | cons e rest =>
    simp only [assign]
    split
    · simp
    · split <;> simp

theorem mem_of_find_eq_some (m : StdMap K α) (k : K) (v : α) (h : find m k = some v) :
    (k, v) ∈ m := by
  induction m with
  | nil => simp [find] at h
  | cons e rest ih =>
    simp only [find] at h
    by_cases hek : e.1 = k
    · rw [if_pos hek] at h
      have : e = (k, v) := Prod.ext hek (Option.some.inj h)
      simp [this]
    · rw [if_neg hek] at h
      simp [ih h]

/-- An element of the map after `modify` is an element of the map before it, or
the image of one. -/
theorem mem_modify (m : StdMap K α) (k : K) (f : α → α) (x : K × α) (hx : x ∈ modify m k f) :
    x ∈ m ∨ ∃ e ∈ m, x = (e.1, f e.2) := by
  induction m with
  | nil => simp [modify] at hx
  | cons e rest ih =>
    simp only [modify] at hx
    by_cases hek : e.1 = k
    · rw [if_pos hek] at hx
      rcases List.mem_cons.mp hx with h | h
      · exact Or.inr ⟨e, by simp, h⟩
      · exact Or.inl (by simp [h])
    · rw [if_neg hek] at hx
      rcases List.mem_cons.mp hx with h | h
      · exact Or.inl (by simp [h])
      · rcases ih h with h' | ⟨e', he', hx'⟩
        · exact Or.inl (by simp [h'])
        · exact Or.inr ⟨e', by simp [he'], hx'⟩

/-- When `k` is a new key, `m[k] = v` followed by `modify` at `k` adds only the
element `(k, f v)`. -/
theorem mem_modify_assign (m : StdMap K α) (k : K) (v : α) (f : α → α) (x : K × α)
    (hnone : find m k = none) (hx : x ∈ modify (assign m k v) k f) :
    x ∈ m ∨ x = (k, f v) := by
  induction m with
  | nil =>
    simp [assign, modify] at hx
    exact Or.inr hx
  | cons e rest ih =>
    have hek : e.1 ≠ k := (find_eq_none_iff _ _).mp hnone e (by simp)
    have hrest : find rest k = none := by
      rw [find_eq_none_iff] at hnone ⊢
      exact fun a ha => hnone a (by simp [ha])
    simp only [assign] at hx
    by_cases h1 : k < e.1
    · rw [if_pos h1] at hx
      simp only [modify, if_true] at hx
      rcases List.mem_cons.mp hx with h | h
      · exact Or.inr h
      · exact Or.inl h
    · rw [if_neg h1] at hx
      have h2 : e.1 < k := lt_of_le_of_ne (not_lt.mp h1) hek
      rw [if_pos h2] at hx
      simp only [modify, if_neg hek] at hx
      rcases List.mem_cons.mp hx with h | h
      · exact Or.inl (by simp [h])
      · rcases ih hrest h with h' | h'
        · exact Or.inl (by simp [h'])
        · exact Or.inr h'

/-- In a sorted map every key before an element is below the key of that element. -/
theorem Sorted.lt_of_mem_before {pre post : StdMap K α} {e : K × α}
    (hs : Sorted (pre ++ e :: post)) : ∀ a ∈ pre, a.1 < e.1 := by
  intro a ha
  unfold Sorted at hs
  rw [List.pairwise_append] at hs
  exact hs.2.2 a ha e (by simp)

end StdMap

namespace Animation

variable {V : Type}

theorem getInitial_ok_of_ne_nil (self : Animation V) (hne : self.keyframes_ ≠ []) :
    ∃ v, self.getInitial = .ok v := by
  unfold getInitial
  cases h : self.keyframes_ with
  | nil => exact absurd h hne
  | cons a rest => exact ⟨_, rfl⟩

theorem getTarget_ok_of_ne_nil (self : Animation V) (hne : self.keyframes_ ≠ []) :
    ∃ v, self.getTarget = .ok v := by
  unfold getTarget
  cases h : self.keyframes_.getLast? with
  | none => exact absurd (List.getLast?_eq_none_iff.mp h) hne
  | some e => exact ⟨_, rfl⟩

end Animation

namespace Animator

variable {V : Type}

theorem TimelinesNonEmpty.addKeyframe {w : World V} (h : TimelinesNonEmpty w) (var : Nat)
    (dt : ℚ) (value : V) (easing : BaseEasingPtr) (now : ℚ) :
    TimelinesNonEmpty (Animator.addKeyframe w var dt value easing now) := by
  intro x hx
  unfold Animator.addKeyframe at hx
  simp only [StdMap.count, StdMap.insert] at hx
  cases hf : StdMap.find w.animator.animations_ var with
  | none =>
    simp only [hf, Option.isSome_none, Bool.false_eq_true, if_false, if_true] at hx
    rcases StdMap.mem_modify_assign _ _ _ _ _ hf hx with h' | h'
    · exact h x h'
    · rw [h']
      exact StdMap.assign_ne_nil _ _ _
  | some d =>
    simp only [hf, Option.isSome_some, if_true] at hx
    norm_num at hx
    rcases StdMap.mem_modify _ _ _ _ hx with h' | ⟨e, _, h'⟩
    · exact h x h'
    · rw [h']
      exact StdMap.assign_ne_nil _ _ _

theorem TimelinesNonEmpty.deleteAnimation {w : World V} (h : TimelinesNonEmpty w) (var : Nat) :
    TimelinesNonEmpty (Animator.deleteAnimation w var) := by
  intro x hx
  exact h x (List.mem_filter.mp hx).1

theorem TimelinesNonEmpty.setHeap {w : World V} (h : TimelinesNonEmpty w) (heap : Nat → V) :
    TimelinesNonEmpty { w with heap := heap } := h

theorem TimelinesNonEmpty.doTransition {w : World V} (h : TimelinesNonEmpty w) (var : Nat)
    (start end_ : V) (trans : ℚ × BaseEasingPtr) (now₁ now₂ : ℚ) :
    TimelinesNonEmpty (Animator.doTransition w var start end_ trans now₁ now₂) := by
  unfold Animator.doTransition
  simp only
  split
  · exact ((h.deleteAnimation var).addKeyframe _ _ _ _ _).addKeyframe _ _ _ _ _
  · exact (h.deleteAnimation var).setHeap _

theorem TimelinesNonEmpty.redoTransition {w : World V} (h : TimelinesNonEmpty w) (var : Nat)
    (end_ : V) (trans : ℚ × BaseEasingPtr) (now₀ now₁ now₂ : ℚ) :
    TimelinesNonEmpty (Animator.redoTransition w var end_ trans now₀ now₁ now₂) := by
  unfold Animator.redoTransition
  simp only
  cases han : isAnimated w var
  · simp only [Bool.false_eq_true, if_false]
    split
    · exact (h.addKeyframe _ _ _ _ _).addKeyframe _ _ _ _ _
    · exact h.setHeap _
  · simp only [if_true]
    split <;> split <;>
      first
        | exact ((h.deleteAnimation var).addKeyframe _ _ _ _ _).addKeyframe _ _ _ _ _
        | exact (h.deleteAnimation var).setHeap _

theorem TimelinesNonEmpty.update [Add V] [SMul ℚ V] {w : World V} (h : TimelinesNonEmpty w)
    (now : ℚ) : ∃ w', Animator.update w now = .ok w' ∧ TimelinesNonEmpty w' := by
  obtain ⟨heap', h1, _, _⟩ := updateValues_spec w.animator.animations_ now w.heap h
  refine ⟨{ heap := heap', animator := ⟨eraseEnded w.animator.animations_ now⟩ }, ?_, ?_⟩
  · simp only [Animator.update, h1]
  · intro x hx
    simp only [eraseEnded_eq_filter] at hx
    exact h x (List.mem_filter.mp hx).1

/-- Every call keeps the timelines non-empty and, from such a registry, returns
normally. -/
theorem TimelinesNonEmpty.call [Add V] [SMul ℚ V] {w : World V} (h : TimelinesNonEmpty w)
    (c : Call V) : ∃ w', Animator.call w c = .ok w' ∧ TimelinesNonEmpty w' := by
  cases c with
  | addKeyframe var dt value easing now =>
    exact ⟨Animator.addKeyframe w var dt value easing now, rfl, h.addKeyframe _ _ _ _ _⟩
  | doTransition var start end_ tr now₁ now₂ =>
    exact ⟨Animator.doTransition w var start end_ tr now₁ now₂, rfl, h.doTransition _ _ _ _ _ _⟩
  | redoTransition var end_ tr now₀ now₁ now₂ =>
    exact ⟨Animator.redoTransition w var end_ tr now₀ now₁ now₂, rfl,
      h.redoTransition _ _ _ _ _ _⟩
  | deleteAnimation var => exact ⟨Animator.deleteAnimation w var, rfl, h.deleteAnimation _⟩
  | update now => exact h.update now

theorem TimelinesNonEmpty.run [Add V] [SMul ℚ V] (cs : List (Call V)) :
    ∀ {w : World V}, TimelinesNonEmpty w →
      ∃ w', Animator.run w cs = .ok w' ∧ TimelinesNonEmpty w' := by
  induction cs with
  | nil => intro w h; exact ⟨w, rfl, h⟩
  | cons c cs ih =>
    intro w h
    obtain ⟨w₁, h1, hinv⟩ := h.call c
    obtain ⟨w₂, h2, hinv₂⟩ := ih hinv
    exact ⟨w₂, by simp only [Animator.run, h1, h2], hinv₂⟩

theorem getInitial_ne_empty {w : World V} (h : TimelinesNonEmpty w) (var : Nat) (arg : String) :
    getInitial w var ≠ .error (.AnimationEmpty arg) := by
  unfold getInitial
  cases hf : StdMap.find w.animator.animations_ var with
  | none => simp
  | some d =>
    obtain ⟨v, hv⟩ := Animation.getInitial_ok_of_ne_nil d.keyframes_
      (h _ (StdMap.mem_of_find_eq_some _ _ _ hf))
    simp [hv]

theorem getTarget_ne_empty {w : World V} (h : TimelinesNonEmpty w) (var : Nat) (arg : String) :
    getTarget w var ≠ .error (.AnimationEmpty arg) := by
  unfold getTarget
  cases hf : StdMap.find w.animator.animations_ var with
  | none => simp
  | some d =>
    obtain ⟨v, hv⟩ := Animation.getTarget_ok_of_ne_nil d.keyframes_
      (h _ (StdMap.mem_of_find_eq_some _ _ _ hf))
    simp [hv]

end Animator

/-! ## Facts about the easing classes and the transition store -/

namespace StandardEasing

/-- The type `LINEAR` of `StandardEasing::get` is the easing object `LINEAR`
used in the timelines, whatever the subtype and the parameters. -/
theorem get_of_type_linear (m : Libm) (st : Subtype) (p q s w x : ℚ) :
    get m ⟨.LINEAR, st, p, q, s, w⟩ x = some (LINEAR.get x) := rfl

end StandardEasing

namespace CompositeEasing

/-- The branch `i == functions_.end()` of `get`, and the empty case. -/
theorem get_of_all_lt (self : CompositeEasing) (t : ℚ) (h : ∀ e ∈ self.functions_, e.1 < t) :
    self.get t = some 1 := by
  unfold get
  split
  · rfl
  · simp only
    rw [dif_pos ((StdMap.lower_bound_eq_length_iff _ _).mpr h)]

/-- The branch of `get` that evaluates the checkpoint `ci` at position `n`,
from the start `(t0, x0)`: the origin for the first checkpoint, the checkpoint
before `ci` otherwise. -/
theorem get_of_lower_bound (self : CompositeEasing) (t : ℚ) (n : Nat)
    (ci : ℚ × ℚ × BaseEasingPtr) (f : BaseEasing) (t0 x0 : ℚ)
    (hlb : (StdMap.lower_bound self.functions_ t).val = n)
    (hi : self.functions_[n]? = some ci)
    (hstart : (n = 0 ∧ t0 = 0 ∧ x0 = 0) ∨
      (∃ cj, 0 < n ∧ self.functions_[n - 1]? = some cj ∧ t0 = cj.1 ∧ x0 = cj.2.1))
    (hf : ci.2.2 = some f) (hne : ci.1 - t0 ≠ 0) :
    self.get t = some (x0 + (ci.2.1 - x0) * f.get ((t - t0) / (ci.1 - t0))) := by
  have hlen : n < self.functions_.length := (List.getElem?_eq_some.mp hi).1
  have hemp : self.functions_.isEmpty = false := by
    cases h : self.functions_ with
    | nil => rw [h] at hlen; simp at hlen
    | cons a b => rfl
  have e1 : self.functions_.get ⟨(StdMap.lower_bound self.functions_ t).val, by omega⟩ = ci := by
    simp only [List.get_eq_getElem, hlb]
    exact (List.getElem?_eq_some.mp hi).2
  unfold get
  simp only [hemp, Bool.false_eq_true, if_false]
  rw [dif_neg (by omega)]
  simp only [e1]
  rcases hstart with ⟨hn, ht0, hx0⟩ | ⟨cj, hn, hj, ht0, hx0⟩
  · rw [dif_pos (by omega)]
    subst ht0; subst hx0
    simp only [floatDiv, if_neg hne, hf]
  · have e2 : self.functions_.get
        ⟨(StdMap.lower_bound self.functions_ t).val - 1, by omega⟩ = cj := by
      simp only [List.get_eq_getElem, hlb]
      exact (List.getElem?_eq_some.mp hj).2
    rw [dif_neg (by omega)]
    simp only [e2]
    subst ht0; subst hx0
    simp only [floatDiv, if_neg hne, hf]

theorem halfComposite_get_half : halfComposite.get (1 / 2) = some (1 / 3) := by
  have h := get_of_lower_bound halfComposite (1 / 2) 0
    (1 / 2, (1 / 3, some StandardEasing.LINEAR)) StandardEasing.LINEAR 0 0
    (by rw [halfComposite, StdMap.lower_bound_cons, if_neg (lt_irrefl _)]) rfl
    (Or.inl ⟨rfl, rfl, rfl⟩) rfl (by norm_num)
  rw [h]
  norm_num [StandardEasing.LINEAR, StandardEasing.getLinear]

end CompositeEasing

namespace TransitionStore

/-- After a sequence of calls of `add`, a name is absent exactly when it was
absent before and none of the calls added it. -/
theorem find_addAll_eq_none_iff (adds : List (String × ℚ × BaseEasingPtr)) :
    ∀ (self : TransitionStore) (name : String),
      StdMap.find (self.addAll adds).transitions_ name = none ↔
        StdMap.find self.transitions_ name = none ∧ ∀ a ∈ adds, a.1 ≠ name := by
  induction adds with
  | nil => intro self name; simp [addAll]
  | cons a rest ih =>
    intro self name
    simp only [addAll]
    rw [ih]
    by_cases h : a.1 = name
    · subst h
      simp [add, StdMap.find_assign_self]
    · simp [add, StdMap.find_assign_of_ne _ _ _ _ (Ne.symm h), h]

end TransitionStore

/-! ## The claims C11 to C20 -/

namespace Animator

variable {V : Type}

/-- C11: after `addKeyframe(var, dt, value, easing)` at clock time `now` the
variable is animated and its timeline has the keyframe `(value, easing)` at time
`now + dt`; at every other time the timeline has what the old timeline of `var`
had there (nothing when `var` had no timeline); the call stores `value` in the
variable when `dt == 0` and leaves the client storage unchanged when `dt != 0`. -/
theorem addKeyframe_effect (w : World V) (var : Nat) (dt : ℚ) (value : V)
    (easing : BaseEasingPtr) (now : ℚ) :
    isAnimated (addKeyframe w var dt value easing now) var = true ∧
    (∃ d, StdMap.find (addKeyframe w var dt value easing now).animator.animations_ var = some d ∧
      StdMap.find d.keyframes_.keyframes_ (now + dt) = some ⟨value, easing⟩ ∧
      ∀ t, t ≠ now + dt →
        StdMap.find d.keyframes_.keyframes_ t =
          match StdMap.find w.animator.animations_ var with
          | none => none
          | some d₀ => StdMap.find d₀.keyframes_.keyframes_ t) ∧
    (dt = 0 → (addKeyframe w var dt value easing now).heap = Function.update w.heap var value) ∧
    (dt ≠ 0 → (addKeyframe w var dt value easing now).heap = w.heap) := by
  have hfind := find_addKeyframe w var dt value easing now
  refine ⟨by simp [isAnimated, hfind], ⟨_, hfind, ?_, ?_⟩, ?_, ?_⟩
  · cases h : StdMap.find w.animator.animations_ var with
    | none => simp [StdMap.find]
    | some d₀ => simp [Animation.addKeyframe, StdMap.find_assign_self]
  · intro t ht
    cases h : StdMap.find w.animator.animations_ var with
    | none => simp [StdMap.find, Ne.symm ht]
    | some d₀ => simp [Animation.addKeyframe, StdMap.find_assign_of_ne _ _ _ _ ht]
  · intro h; simp [heap_addKeyframe, h]
  · intro h; simp [heap_addKeyframe, h]

/-- C13: `get(var, true)` is the stored value of the variable; `get(var, false)`
is `getTarget(var)`: the value of the last keyframe of the timeline when `var`
is animated, and the stored value when it is not. -/
theorem get_instantaneous_or_target (w : World V) (var : Nat) :
    get w var true = .ok (w.heap var) ∧
    get w var false = getTarget w var ∧
    (∀ d tn kn, StdMap.find w.animator.animations_ var = some d →
      d.keyframes_.keyframes_.getLast? = some (tn, kn) → get w var false = .ok kn.value) ∧
    (isAnimated w var = false → get w var false = .ok (w.heap var)) := by
  refine ⟨rfl, rfl, ?_, ?_⟩
  · intro d tn kn hd hl
    simp [get, getTarget, hd, Animation.getTarget, hl]
  · intro h
    have : StdMap.find w.animator.animations_ var = none := by simpa [isAnimated] using h
    simp [get, getTarget, this]

/-- C13 in `halfwayWorld`: the variable holds the interpolated value `1/2`, which
is what `get(&x, true)` returns, and `get(&x, false)` returns the target `1`. -/
theorem get_instantaneous_or_target_witness :
    get halfwayWorld 0 true = .ok (halfwayWorld.heap 0) ∧ halfwayWorld.heap 0 = 1 / 2 ∧
    get halfwayWorld 0 false = .ok 1 :=
  ⟨(get_instantaneous_or_target halfwayWorld 0).1, by simp [halfwayWorld],
   (get_instantaneous_or_target halfwayWorld 0).2.2.1 ⟨0, linearTimeline⟩ 1
     ⟨1, some StandardEasing.LINEAR⟩ rfl rfl⟩

/-- C14: `getInitial(var)` and `getElapsed(var)` throw `AnimatorUnknownVariable`
if and only if `var` has no registry entry; `getTarget(var)` never throws it (and
`getRemaining(var)`, a plain number, throws nothing); when `var` has no entry
they return the stored value of the variable and `0`. -/
theorem accessor_asymmetry (w : World V) (var : Nat) (now : ℚ) :
    ((∃ arg, getInitial w var = .error (.AnimatorUnknownVariable arg)) ↔
      isAnimated w var = false) ∧
    ((∃ arg, getElapsed w var now = .error (.AnimatorUnknownVariable arg)) ↔
      isAnimated w var = false) ∧
    (∀ arg, getTarget w var ≠ .error (.AnimatorUnknownVariable arg)) ∧
    (isAnimated w var = false → getTarget w var = .ok (w.heap var)) ∧
    (isAnimated w var = false → getRemaining w var now = 0) := by
  cases h : StdMap.find w.animator.animations_ var with
  | none =>
    simp [getInitial, getElapsed, getTarget, getRemaining, isAnimated, h]
  | some d =>
    simp only [getInitial, getElapsed, getTarget, getRemaining, isAnimated, h]
    refine ⟨?_, ?_, ?_, ?_, ?_⟩
    · simp only [Option.isSome_some, Bool.true_eq_false, iff_false, not_exists]
      intro arg
      unfold Animation.getInitial
      split <;> simp
    · simp
    · intro arg
      unfold Animation.getTarget
      split <;> simp
    · simp
    · simp

/-- C15: after `deleteAnimation(var)` the variable is not animated, the stored
values are all unchanged, and the registry entry of every other variable is
unchanged; when `var` is not animated the call changes nothing. -/
theorem deleteAnimation_effect (w : World V) (var : Nat) :
    isAnimated (deleteAnimation w var) var = false ∧
    (deleteAnimation w var).heap = w.heap ∧
    (∀ other, other ≠ var →
      StdMap.find (deleteAnimation w var).animator.animations_ other =
        StdMap.find w.animator.animations_ other) ∧
    (isAnimated w var = false → deleteAnimation w var = w) := by
  refine ⟨?_, rfl, ?_, ?_⟩
  · simp [isAnimated, deleteAnimation, StdMap.find_erase_self]
  · intro other h
    exact StdMap.find_erase_of_ne _ _ _ h
  · intro h
    have hfind : StdMap.find w.animator.animations_ var = none := by
      simpa [isAnimated] using h
    unfold deleteAnimation
    rw [StdMap.erase_of_find_eq_none _ _ hfind]

/-- C16: from the empty registry, every finite sequence of calls of
`addKeyframe`, `doTransition`, `redoTransition`, `deleteAnimation` and `update`
(any arguments, any clock values) runs without an exception and ends in a world
where every timeline of the registry has a keyframe; there a further `update()`
returns normally and `getInitial`, `getTarget`, `get` and `getElapsed` do not
throw `AnimationEmpty`. -/
theorem registry_timelines_nonempty [Add V] [SMul ℚ V] (heap : Nat → V) (cs : List (Call V)) :
    ∃ w, run { heap := heap } cs = .ok w ∧
      (∀ e ∈ w.animator.animations_, e.2.keyframes_.keyframes_ ≠ []) ∧
      (∀ now, ∃ w', update w now = .ok w') ∧
      (∀ var arg,
        getInitial w var ≠ .error (.AnimationEmpty arg) ∧
        getTarget w var ≠ .error (.AnimationEmpty arg) ∧
        (∀ b, get w var b ≠ .error (.AnimationEmpty arg)) ∧
        (∀ now, getElapsed w var now ≠ .error (.AnimationEmpty arg))) := by
  have h0 : TimelinesNonEmpty ({ heap := heap } : World V) := by
    intro e he
    simp at he
  obtain ⟨w, hrun, hinv⟩ := TimelinesNonEmpty.run cs h0
  refine ⟨w, hrun, hinv, ?_, ?_⟩
  · intro now
    obtain ⟨w', h', _⟩ := hinv.update now
    exact ⟨w', h'⟩
  · intro var arg
    refine ⟨getInitial_ne_empty hinv var arg, getTarget_ne_empty hinv var arg, ?_, ?_⟩
    · intro b
      cases b
      · exact getTarget_ne_empty hinv var arg
      · simp [get]
    · intro now
      unfold getElapsed
      split <;> simp

end Animator

namespace StandardEasing

end StandardEasing

namespace CompositeEasing

/-- C18, as stated, fails at `t = t_n`: `halfComposite` has the single
checkpoint `(1/2, 1/3)` with the linear easing, and `get(1/2)` is `1/3`, the
target value of that checkpoint, not `1`. -/
theorem get_at_last_checkpoint_counterexample :
    halfComposite.functions_.getLast? = some (1 / 2, (1 / 3, some StandardEasing.LINEAR)) ∧
    halfComposite.get (1 / 2) = some (1 / 3) ∧ halfComposite.get (1 / 2) ≠ some 1 := by
  refine ⟨rfl, halfComposite_get_half, ?_⟩
  rw [halfComposite_get_half]
  norm_num

/-- C18, amended: for checkpoints with strictly increasing times, the last one
`(tn, xn, fn)`, `get(t)` is `1` for every `t > tn`.  At `t = tn` the easing `f`
of the last checkpoint is evaluated at `1`: `get(tn)` is `xn * f(1)` when it is
the only checkpoint (and `tn` is not `0`), and `xp + (xn - xp) * f(1)` when the
checkpoint before it has the value `xp`; so it is `xn` when `f(1) = 1`. -/
theorem get_from_last_checkpoint (pre : StdMap ℚ (ℚ × BaseEasingPtr)) (tn xn : ℚ)
    (fn : BaseEasingPtr) (hs : StdMap.Sorted (pre ++ [(tn, (xn, fn))])) :
    (∀ t, tn < t → (CompositeEasing.mk (pre ++ [(tn, (xn, fn))])).get t = some 1) ∧
    (∀ f, fn = some f → pre = [] → tn ≠ 0 →
      (CompositeEasing.mk (pre ++ [(tn, (xn, fn))])).get tn = some (xn * f.get 1)) ∧
    (∀ f cp, fn = some f → pre.getLast? = some cp →
      (CompositeEasing.mk (pre ++ [(tn, (xn, fn))])).get tn
        = some (cp.2.1 + (xn - cp.2.1) * f.get 1)) := by
  refine ⟨?_, ?_, ?_⟩
  · intro t ht
    apply get_of_all_lt
    exact (StdMap.lower_bound_eq_length_iff _ _).mp
      ((StdMap.lower_bound_eq_length_iff_last pre tn (xn, fn) t hs).mpr ht)
  · intro f hf hpre h0
    subst hpre
    have h := get_of_lower_bound (CompositeEasing.mk ([] ++ [(tn, (xn, fn))])) tn 0
      (tn, (xn, fn)) f 0 0
      (by simp [StdMap.lower_bound_cons]) (by simp) (Or.inl ⟨rfl, rfl, rfl⟩) hf
      (by simpa using h0)
    rw [h]
    simp [h0]
  · intro f cp hf hcp
    obtain ⟨pre', rfl⟩ : ∃ pre', pre = pre' ++ [cp] := by
      rcases List.eq_nil_or_concat pre with h | ⟨l, b, h⟩
      · subst h; simp at hcp
      · subst h; simp at hcp; subst hcp; exact ⟨l, by simp⟩
    have hlt : cp.1 < tn := hs.lt_last cp (by simp)
    have hpre' : ∀ e ∈ pre', e.1 < tn := fun e he => hs.lt_last e (by simp [he])
    have hne : tn - cp.1 ≠ 0 := ne_of_gt (sub_pos.mpr hlt)
    have hlist : pre' ++ [cp] ++ [(tn, (xn, fn))] = pre' ++ cp :: (tn, (xn, fn)) :: [] := by
      simp
    have h := get_of_lower_bound (CompositeEasing.mk (pre' ++ [cp] ++ [(tn, (xn, fn))])) tn
      (pre'.length + 1) (tn, (xn, fn)) f cp.1 cp.2.1
      (by
        show (StdMap.lower_bound (pre' ++ [cp] ++ [(tn, (xn, fn))]) tn).val = pre'.length + 1
        rw [hlist, StdMap.lower_bound_append_of_lt _ _ _ hpre', StdMap.lower_bound_cons,
          if_pos hlt, StdMap.lower_bound_cons, if_neg (lt_irrefl tn)])
      (by
        show (pre' ++ [cp] ++ [(tn, (xn, fn))])[pre'.length + 1]? = some (tn, (xn, fn))
        rw [hlist, List.getElem?_append_right (by omega)]
        simp)
      (Or.inr ⟨cp, by omega, by
        show (pre' ++ [cp] ++ [(tn, (xn, fn))])[pre'.length + 1 - 1]? = some cp
        rw [hlist, Nat.add_sub_cancel, List.getElem?_append_right (le_refl _)]
        simp, rfl, rfl⟩)
      hf hne
    rw [h]
    simp [div_self hne]

/-- C18, amended, on the single checkpoint `(1/2, 1/3)` at the later time `3/4`. -/
theorem get_from_last_checkpoint_witness :
    StdMap.Sorted ([] ++ [((1 / 2 : ℚ), ((1 / 3 : ℚ), some StandardEasing.LINEAR))]) ∧
    (1 / 2 : ℚ) < 3 / 4 ∧
    (CompositeEasing.mk ([] ++ [(1 / 2, (1 / 3, some StandardEasing.LINEAR))])).get (3 / 4)
      = some 1 :=
  ⟨by simp [StdMap.Sorted], by norm_num,
   (get_from_last_checkpoint [] (1 / 2) (1 / 3) (some StandardEasing.LINEAR)
     (by simp [StdMap.Sorted])).1 (3 / 4) (by norm_num)⟩

/-- C19: for every composite easing, one with no checkpoint included, and every
`t` strictly greater than all of its checkpoint times, `get(t)` is exactly `1`,
whatever the last checkpoint time and its target value are. -/
theorem get_after_all_checkpoints (self : CompositeEasing) (t : ℚ)
    (h : ∀ e ∈ self.functions_, e.1 < t) : self.get t = some 1 :=
  get_of_all_lt self t h

/-- C19 on `halfComposite`, whose last checkpoint is at `1/2` with the target
value `1/3`, at the time `3/4`, below `1`. -/
theorem get_after_all_checkpoints_witness :
    (∀ e ∈ halfComposite.functions_, e.1 < 3 / 4) ∧ halfComposite.get (3 / 4) = some 1 :=
  ⟨by norm_num [halfComposite],
   get_after_all_checkpoints halfComposite (3 / 4) (by norm_num [halfComposite])⟩

end CompositeEasing

namespace TransitionStore

/-- C20: after `add(name, d, e)`, `get(name)` returns `(d, e)` and `get(other)`
is unchanged for every other name; on a store built from the empty one by a
sequence of calls of `add`, `get(n)` throws if and only if none of the calls
added the name `n`. -/
theorem add_then_get (self : TransitionStore) (name : String) (d : ℚ) (e : BaseEasingPtr) :
    (self.add name d e).get name = .ok (d, e) ∧
    (∀ other, other ≠ name → (self.add name d e).get other = self.get other) ∧
    (∀ (adds : List (String × ℚ × BaseEasingPtr)) (n : String),
      (∃ err, (({} : TransitionStore).addAll adds).get n = .error err) ↔
        ∀ a ∈ adds, a.1 ≠ n) := by
  refine ⟨?_, ?_, ?_⟩
  · simp [get, add, StdMap.find_assign_self]
  · intro other h
    simp [get, add, StdMap.find_assign_of_ne _ _ _ _ h]
  · intro adds n
    have h := find_addAll_eq_none_iff adds {} n
    simp only [StdMap.find, true_and] at h
    rw [← h]
    unfold get
    cases hf : StdMap.find (({} : TransitionStore).addAll adds).transitions_ n with
    | none => simp
    | some tr => simp

end TransitionStore

/-! ## Facts about strings, the transition text and the registry -/

namespace StdMap
variable {K α : Type} [LinearOrder K]

theorem mem_assign (m : StdMap K α) (k : K) (v : α) (x : K × α) (hx : x ∈ assign m k v) :
    x ∈ m ∨ x = (k, v) := by
  induction m with
  | nil => simp [assign] at hx; exact Or.inr hx
  | cons e rest ih =>
    simp only [assign] at hx
    split at hx
    · rcases List.mem_cons.mp hx with h | h
      · exact Or.inr h
      · exact Or.inl h
    · split at hx
      · rcases List.mem_cons.mp hx with h | h
        · exact Or.inl (by simp [h])
        · rcases ih h with h' | h'
          · exact Or.inl (by simp [h'])
          · exact Or.inr h'
      · rcases List.mem_cons.mp hx with h | h
        · exact Or.inr h
        · exact Or.inl (by simp [h])

/-- The assignment `m[k] = v` keeps the keys strictly increasing. -/
theorem Sorted.assign {m : StdMap K α} (hs : Sorted m) (k : K) (v : α) :
    Sorted (StdMap.assign m k v) := by
  induction m with
  | nil => simp [StdMap.assign, Sorted]
  | cons e rest ih =>
    unfold Sorted at hs
    rw [List.pairwise_cons] at hs
    simp only [StdMap.assign]
    split
    · rename_i h1
      unfold Sorted
      rw [List.pairwise_cons, List.pairwise_cons]
      refine ⟨?_, hs⟩
      intro b hb
      rcases List.mem_cons.mp hb with h | h
      · rw [h]; exact h1
      · exact lt_trans h1 (hs.1 b h)
    · split
      · rename_i h1 h2
        unfold Sorted
        rw [List.pairwise_cons]
        refine ⟨?_, ih hs.2⟩
        intro b hb
        rcases mem_assign _ _ _ _ hb with h | h
        · exact hs.1 b h
        · rw [h]; exact h2
      · rename_i h1 h2
        have hek : e.1 = k := le_antisymm (not_lt.mp h1) (not_lt.mp h2)
        unfold Sorted
        rw [List.pairwise_cons]
        refine ⟨?_, hs.2⟩
        intro b hb
        show k < b.1
        rw [← hek]; exact hs.1 b hb

/-- On a sorted map `m[k] = v` adds one element when `k` is a new key and none
when it is not. -/
theorem length_assign {m : StdMap K α} (hs : Sorted m) (k : K) (v : α) :
    (assign m k v).length = if (find m k).isSome then m.length else m.length + 1 := by
  induction m with
  | nil => simp [assign, find]
  | cons e rest ih =>
    unfold Sorted at hs
    rw [List.pairwise_cons] at hs
    simp only [assign]
    split
    · rename_i h1
      have hnone : find (e :: rest) k = none := by
        rw [find_eq_none_iff]
        intro a ha
        rcases List.mem_cons.mp ha with h | h
        · rw [h]; exact ne_of_gt h1
        · exact ne_of_gt (lt_trans h1 (hs.1 a h))
      simp [hnone]
    · split
      · rename_i h1 h2
        simp only [List.length_cons, ih hs.2, find, if_neg (ne_of_lt h2)]
        split <;> rfl
      · rename_i h1 h2
        have hek : e.1 = k := le_antisymm (not_lt.mp h1) (not_lt.mp h2)
        simp [find, hek]

end StdMap

namespace Animator
variable {V : Type}

/-- Writing again into variables that already hold the values of their
timelines changes nothing. -/
theorem updateValues_fixed [Add V] [SMul ℚ V] (m : StdMap Nat (AnimationData V)) (t : ℚ)
    (heap : Nat → V) (h : ∀ e ∈ m, e.2.keyframes_.get t = .ok (heap e.2.variable_)) :
    updateValues m heap t = .ok heap := by
  induction m with
  | nil => rfl
  | cons a rest ih =>
    have ha := h a (by simp)
    simp only [updateValues, AnimationData.update, ha, Function.update_eq_self]
    exact ih (fun e he => h e (by simp [he]))

end Animator

namespace Str

theorem find_eq_none_iff_not_mem (s : Str) (c : Char) : find s c = none ↔ c ∉ s := by
  induction s with
  | nil => simp [find]
  | cons a s ih =>
    simp only [find]
    by_cases h : a = c
    · simp [h]
    · simp [h, ih, Ne.symm h]

/-- The first occurrence of `c` after a prefix without `c`. -/
theorem find_append_cons (l r : Str) (c : Char) (h : c ∉ l) :
    find (l ++ c :: r) c = some l.length := by
  induction l with
  | nil => simp [find]
  | cons a l ih =>
    have ha : a ≠ c := fun e => h (by simp [e])
    have hl : c ∉ l := fun e => h (by simp [e])
    simp [find, ha, ih hl]

theorem find_first_not_of_eq_none (s set : Str) (h : find_first_not_of s set = none) :
    ∀ c ∈ s, c ∈ set := by
  induction s with
  | nil => simp
  | cons a s ih =>
    simp only [find_first_not_of] at h
    by_cases ha : a ∈ set
    · simp only [ha, if_true, Option.map_eq_none'] at h
      intro c hc
      rcases List.mem_cons.mp hc with e | e
      · rw [e]; exact ha
      · exact ih h c e
    · simp [ha] at h

theorem find_first_not_of_eq_some (s set : Str) :
    ∀ i, find_first_not_of s set = some i → ∀ c ∈ s.take i, c ∈ set := by
  induction s with
  | nil => intro i h; simp [find_first_not_of] at h
  | cons a s ih =>
    intro i h
    simp only [find_first_not_of] at h
    by_cases ha : a ∈ set
    · simp only [ha, if_true, Option.map_eq_some'] at h
      obtain ⟨k, hk, rfl⟩ := h
      intro c hc
      rw [List.take_succ_cons] at hc
      rcases List.mem_cons.mp hc with e | e
      · rw [e]; exact ha
      · exact ih k hk c e
    · simp only [ha, if_false, Option.some.injEq] at h
      subst h
      simp

theorem find_last_not_of_eq_none (s set : Str) (h : find_last_not_of s set = none) :
    ∀ c ∈ s, c ∈ set := by
  induction s with
  | nil => simp
  | cons a s ih =>
    simp only [find_last_not_of] at h
    cases hl : find_last_not_of s set with
    | some j => simp [hl] at h
    | none =>
      simp only [hl] at h
      by_cases ha : a ∈ set
      · intro c hc
        rcases List.mem_cons.mp hc with e | e
        · rw [e]; exact ha
        · exact ih hl c e
      · simp [ha] at h

theorem find_last_not_of_eq_some (s set : Str) :
    ∀ j, find_last_not_of s set = some j → ∀ c ∈ s.drop (j + 1), c ∈ set := by
  induction s with
  | nil => intro j h; simp [find_last_not_of] at h
  | cons a s ih =>
    intro j h
    simp only [find_last_not_of] at h
    cases hl : find_last_not_of s set with
    | some k =>
      simp only [hl, Option.some.injEq] at h
      subst h
      intro c hc
      rw [List.drop_succ_cons] at hc
      exact ih k hl c hc
    | none =>
      simp only [hl] at h
      by_cases ha : a ∈ set
      · simp [ha] at h
      · simp only [ha, if_false, Option.some.injEq] at h
        subst h
        intro c hc
        simp only [zero_add, List.drop_succ_cons, List.drop_zero] at hc
        exact find_last_not_of_eq_none s set hl c hc

theorem find_first_not_of_append (w s set : Str) (hw : ∀ c ∈ w, c ∈ set) :
    find_first_not_of (w ++ s) set = (find_first_not_of s set).map (fun k => k + w.length) := by
  induction w with
  | nil => simp
  | cons a w ih =>
    have ha : a ∈ set := hw a (by simp)
    have hw' : ∀ c ∈ w, c ∈ set := fun c hc => hw c (by simp [hc])
    rw [List.cons_append]
    simp only [find_first_not_of, ha, if_true]
    rw [ih hw', Option.map_map]
    cases find_first_not_of s set with
    | none => rfl
    | some k => simp [Nat.add_assoc]

theorem find_last_not_of_of_all (w set : Str) (hw : ∀ c ∈ w, c ∈ set) :
    find_last_not_of w set = none := by
  induction w with
  | nil => rfl
  | cons a w ih =>
    have ha : a ∈ set := hw a (by simp)
    simp [find_last_not_of, ih (fun c hc => hw c (by simp [hc])), ha]

theorem find_last_not_of_append (s w set : Str) (b : Char) (hb : b ∉ set)
    (hw : ∀ c ∈ w, c ∈ set) :
    find_last_not_of (s ++ b :: w) set = some s.length := by
  induction s with
  | nil => simp [find_last_not_of, find_last_not_of_of_all w set hw, hb]
  | cons a s ih => simp [find_last_not_of, ih]

end Str

/-- The function `trim` keeps every character that is not a whitespace. -/
theorem mem_trim (s : Str) (c : Char) (hc : c ∈ s) (hws : c ∉ whitespace) : c ∈ trim s := by
  unfold trim
  cases hf : Str.find_first_not_of s whitespace with
  | none => exact absurd (Str.find_first_not_of_eq_none s _ hf c hc) hws
  | some i =>
    have h1 := Str.find_first_not_of_eq_some s whitespace i hf
    have hdrop : c ∈ s.drop i := by
      rw [← List.take_append_drop i s] at hc
      rcases List.mem_append.mp hc with h | h
      · exact absurd (h1 c h) hws
      · exact h
    cases hl : Str.find_last_not_of s whitespace with
    | none => exact hdrop
    | some j =>
      have h2 := Str.find_last_not_of_eq_some s whitespace j hl
      simp only
      rw [← List.take_append_drop (j - i + 1) (s.drop i)] at hdrop
      rcases List.mem_append.mp hdrop with h | h
      · exact h
      · rw [List.drop_drop] at h
        have hsub : c ∈ s.drop (j + 1) := by
          have hle : j + 1 ≤ i + (j - i + 1) := by omega
          obtain ⟨d, hd⟩ := Nat.exists_eq_add_of_le hle
          have hdd : s.drop (i + (j - i + 1)) = (s.drop (j + 1)).drop d := by
            rw [List.drop_drop, hd]
          rw [hdd] at h
          exact List.mem_of_mem_drop h
        exact absurd (h2 c hsub) hws

/-- The function `trim` returns a part of its argument. -/
theorem mem_of_mem_trim (s : Str) (c : Char) (hc : c ∈ trim s) : c ∈ s := by
  unfold trim at hc
  cases hf : Str.find_first_not_of s whitespace with
  | none => simp [hf] at hc
  | some i =>
    cases hl : Str.find_last_not_of s whitespace with
    | none =>
      simp only [hf, hl] at hc
      exact List.mem_of_mem_drop hc
    | some j =>
      simp only [hf, hl] at hc
      exact List.mem_of_mem_drop (List.mem_of_mem_take hc)

/-- The function `trim` removes the whitespace around a text that begins and
ends with other characters. -/
theorem trim_pad (w₁ w₂ kw : Str) (h₁ : ∀ c ∈ w₁, c ∈ whitespace) (h₂ : ∀ c ∈ w₂, c ∈ whitespace)
    (hhead : ∀ a ∈ kw.head?, a ∉ whitespace) (hlast : ∀ b ∈ kw.getLast?, b ∉ whitespace)
    (hne : kw ≠ []) : trim (w₁ ++ kw ++ w₂) = kw := by
  obtain ⟨a, v, rfl⟩ : ∃ a v, kw = a :: v := by
    cases kw with
    | nil => exact absurd rfl hne
    | cons a v => exact ⟨a, v, rfl⟩
  have ha : a ∉ whitespace := hhead a (by simp)
  obtain ⟨u, b, hub⟩ : ∃ u b, a :: v = u ++ [b] := by
    rcases List.eq_nil_or_concat (a :: v) with h | ⟨u, b, h⟩
    · exact absurd h hne
    · exact ⟨u, b, by simpa using h⟩
  have hb : b ∉ whitespace := hlast b (by rw [hub]; simp)
  have hfirst : Str.find_first_not_of (w₁ ++ (a :: v) ++ w₂) whitespace = some w₁.length := by
    rw [List.append_assoc, Str.find_first_not_of_append _ _ _ h₁]
    simp [Str.find_first_not_of, ha]
  have hlst : Str.find_last_not_of (w₁ ++ (a :: v) ++ w₂) whitespace
      = some (w₁.length + u.length) := by
    have : w₁ ++ (a :: v) ++ w₂ = (w₁ ++ u) ++ b :: w₂ := by rw [hub]; simp
    rw [this, Str.find_last_not_of_append _ _ _ _ hb h₂]
    simp
  unfold trim
  simp only [hfirst, hlst]
  have hlen : w₁.length + u.length - w₁.length + 1 = (a :: v).length := by
    rw [hub]; simp
  rw [hlen, List.append_assoc, List.drop_left, List.take_left]

namespace Str

/-- A string with `c` first at position `i` splits there. -/
theorem eq_of_find_eq_some (s : Str) (c : Char) :
    ∀ i, find s c = some i → s = s.take i ++ c :: s.drop (i + 1) ∧ c ∉ s.take i := by
  induction s with
  | nil => intro i h; simp [find] at h
  | cons a s ih =>
    intro i h
    simp only [find] at h
    by_cases ha : a = c
    · simp only [ha, if_true, Option.some.injEq] at h
      subst h
      simp [ha]
    · simp only [ha, if_false, Option.map_eq_some'] at h
      obtain ⟨k, hk, rfl⟩ := h
      obtain ⟨h1, h2⟩ := ih k hk
      refine ⟨?_, ?_⟩
      · simp only [List.take_succ_cons, List.drop_succ_cons, List.cons_append]
        rw [← h1]
      · simp only [List.take_succ_cons, List.mem_cons, not_or]
        exact ⟨fun e => ha e.symm, h2⟩

theorem mem_drop_of_find_eq_some (s : Str) (c : Char) :
    ∀ i, find s c = some i → c ∈ s.drop i := by
  induction s with
  | nil => intro i h; simp [find] at h
  | cons a s ih =>
    intro i h
    simp only [find] at h
    by_cases ha : a = c
    · simp only [ha, if_true, Option.some.injEq] at h
      subst h
      simp [ha]
    · simp only [ha, if_false, Option.map_eq_some'] at h
      obtain ⟨k, hk, rfl⟩ := h
      simpa using ih k hk

end Str

namespace TransitionStore

theorem shapeKeyword_facts (t : StandardEasing.Type_) :
    shapeKeyword t ≠ [] ∧ (∀ c ∈ shapeKeyword t, c ∉ whitespace) ∧
    ',' ∉ shapeKeyword t ∧ '(' ∉ shapeKeyword t ∧ ')' ∉ shapeKeyword t := by
  cases t <;> decide

theorem phaseKeyword_facts (st : StandardEasing.Subtype) :
    phaseKeyword st ≠ [] ∧ (∀ c ∈ phaseKeyword st, c ∉ whitespace) ∧
    ',' ∉ phaseKeyword st ∧ '(' ∉ phaseKeyword st ∧ ')' ∉ phaseKeyword st := by
  cases st <;> decide

theorem matchType_shapeKeyword (name : String) (t : StandardEasing.Type_) :
    matchType name (shapeKeyword t) = .ok t := by
  cases t <;> rfl

theorem matchSubtype_phaseKeyword (name : String) (st : StandardEasing.Subtype) :
    matchSubtype name (phaseKeyword st) = .ok st := by
  cases st <;> rfl

theorem eq_shapeKeyword_of_matchType (name : String) (s : Str) (t : StandardEasing.Type_)
    (h : matchType name s = .ok t) : s = shapeKeyword t := by
  unfold matchType at h
  split at h
  · rename_i hs; cases h; exact hs
  · split at h
    · rename_i hs; cases h; exact hs
    · split at h
      · rename_i hs; cases h; exact hs
      · split at h
        · rename_i hs; cases h; exact hs
        · split at h
          · rename_i hs; cases h; exact hs
          · cases h

theorem eq_phaseKeyword_of_matchSubtype (name : String) (s : Str) (st : StandardEasing.Subtype)
    (h : matchSubtype name s = .ok st) : s = phaseKeyword st := by
  unfold matchSubtype at h
  split at h
  · rename_i hs; cases h; exact hs
  · split at h
    · rename_i hs; cases h; exact hs
    · split at h
      · rename_i hs; cases h; exact hs
      · split at h
        · rename_i hs; cases h; exact hs
        · cases h

end TransitionStore

namespace TransitionStore

/-- When the split succeeds with a `type_str` that is a shape keyword, no
parenthesis was found: `type_str` is the shape clause, `subtype_str` the phase
clause (or `in`), and `type_params_str` is empty. -/
theorem splitDefinition_of_matchType (name : String) (value ty sub ps : Str)
    (t : StandardEasing.Type_)
    (h : splitDefinition name value = .ok (ty, sub, ps)) (ht : matchType name ty = .ok t) :
    ps = [] ∧ ty = shapeClause (trim value) ∧
    (phaseClause (trim value) = some sub ∨
      (phaseClause (trim value) = none ∧ sub = ['i', 'n'])) := by
  have hkw := eq_shapeKeyword_of_matchType name ty t ht
  have hnp : '(' ∉ ty := by rw [hkw]; exact (shapeKeyword_facts t).2.2.2.1
  unfold splitDefinition at h
  simp only at h
  cases hc : Str.find (trim value) ',' with
  | none =>
    simp only [hc, Except.ok.injEq, Prod.mk.injEq] at h
    obtain ⟨h1, h2, h3⟩ := h
    exact ⟨h3.symm, by rw [shapeClause, hc]; exact h1.symm,
      Or.inr ⟨by simp [phaseClause, hc], h2.symm⟩⟩
  | some pc =>
    simp only [hc] at h
    cases hp1 : Str.find (trim (List.take pc (trim value))) '(' with
    | none =>
      simp only [hp1, Except.ok.injEq, Prod.mk.injEq] at h
      obtain ⟨h1, h2, h3⟩ := h
      exact ⟨h3.symm, by simp [shapeClause, hc, h1], Or.inl (by simp [phaseClause, hc, h2])⟩
    | some p1 =>
      cases hp2 : Str.find (trim (List.take pc (trim value))) ')' with
      | none =>
        simp only [hp1, hp2, Except.ok.injEq, Prod.mk.injEq] at h
        obtain ⟨h1, h2, h3⟩ := h
        exact ⟨h3.symm, by simp [shapeClause, hc, h1], Or.inl (by simp [phaseClause, hc, h2])⟩
      | some p2 =>
        simp only [hp1, hp2] at h
        exfalso
        split at h
        · cases h
        · split at h
          · cases h
          · simp only [Except.ok.injEq, Prod.mk.injEq] at h
            apply hnp
            rw [← h.1]
            exact mem_trim _ _ (Str.mem_drop_of_find_eq_some _ _ _ hp1) (by decide)

/-- What `parseDefinition` accepts: the shape clause of the trimmed text is a
shape keyword, the phase clause, if there is a comma, is a phase keyword (the
phase is `IN` otherwise), the text has no parenthesis, and the easing is the one
built by `StandardEasing(type, subtype)`. -/
theorem parseDefinition_eq_ok (m : Libm) (lexical_cast : Str → Option ℚ) (name : String)
    (value : Str) (e : StandardEasing)
    (h : parseDefinition m lexical_cast name value = .ok e) :
    ∃ t st, e = StandardEasing.ofTypeSubtype m t st ∧
      shapeClause (trim value) = shapeKeyword t ∧
      (phaseClause (trim value) = some (phaseKeyword st) ∨
        (phaseClause (trim value) = none ∧ st = .IN)) ∧
      '(' ∉ value ∧ ')' ∉ value := by
  unfold parseDefinition at h
  cases hsplit : splitDefinition name value with
  | error err => simp [hsplit] at h
  | ok r =>
    obtain ⟨ty, sub, ps⟩ := r
    simp only [hsplit] at h
    cases hty : matchType name ty with
    | error err => simp [hty] at h
    | ok t =>
      simp only [hty] at h
      cases hst : matchSubtype name sub with
      | error err => simp [hst] at h
      | ok st =>
        simp only [hst] at h
        obtain ⟨hps, hshape, hphase⟩ := splitDefinition_of_matchType name value ty sub ps t hsplit hty
        subst hps
        simp only [ne_eq, not_true_eq_false, if_false, Except.ok.injEq] at h
        have hkw := eq_shapeKeyword_of_matchType name ty t hty
        have hpk := eq_phaseKeyword_of_matchSubtype name sub st hst
        have hphase' : phaseClause (trim value) = some (phaseKeyword st) ∨
            (phaseClause (trim value) = none ∧ st = .IN) := by
          rcases hphase with h1 | ⟨h1, h2⟩
          · exact Or.inl (by rw [h1, hpk])
          · refine Or.inr ⟨h1, ?_⟩
            rw [h2] at hst
            have hin : matchSubtype name ['i', 'n'] = .ok .IN := rfl
            rw [hin] at hst
            exact (Except.ok.inj hst).symm
        have hparen : ∀ c, c = '(' ∨ c = ')' → c ∉ value := by
          intro c hc hmem
          have hcw : c ∉ whitespace := by rcases hc with rfl | rfl <;> decide
          have hcc : c ≠ ',' := by rcases hc with rfl | rfl <;> decide
          have hct : c ∉ shapeKeyword t := by
            rcases hc with rfl | rfl
            · exact (shapeKeyword_facts t).2.2.2.1
            · exact (shapeKeyword_facts t).2.2.2.2
          have hcs : c ∉ phaseKeyword st := by
            rcases hc with rfl | rfl
            · exact (phaseKeyword_facts st).2.2.2.1
            · exact (phaseKeyword_facts st).2.2.2.2
          have hd : c ∈ trim value := mem_trim value c hmem hcw
          cases hcomma : Str.find (trim value) ',' with
          | none =>
            have : trim value = shapeKeyword t := by
              rw [← hkw, hshape]; simp [shapeClause, hcomma]
            rw [this] at hd
            exact hct hd
          | some pc =>
            obtain ⟨hsplit', _⟩ := Str.eq_of_find_eq_some _ _ _ hcomma
            rw [hsplit'] at hd
            rcases List.mem_append.mp hd with h1 | h1
            · apply hct
              rw [← hkw, hshape]
              simp only [shapeClause, hcomma]
              exact mem_trim _ _ h1 hcw
            · rcases List.mem_cons.mp h1 with h2 | h2
              · exact hcc h2
              · apply hcs
                rcases hphase' with h3 | ⟨h3, _⟩
                · simp only [phaseClause, hcomma, Option.some.injEq] at h3
                  rw [← h3]
                  exact mem_trim _ _ h2 hcw
                · simp [phaseClause, hcomma] at h3
        exact ⟨t, st, h.symm, by rw [← hshape, hkw], hphase',
          hparen _ (Or.inl rfl), hparen _ (Or.inr rfl)⟩

/-- The text of a shape keyword alone, with whitespace around it. -/
theorem parseDefinition_shape (m : Libm) (lexical_cast : Str → Option ℚ) (name : String)
    (w₁ w₂ : Str) (h₁ : ∀ c ∈ w₁, c ∈ whitespace) (h₂ : ∀ c ∈ w₂, c ∈ whitespace)
    (t : StandardEasing.Type_) :
    parseDefinition m lexical_cast name (w₁ ++ shapeKeyword t ++ w₂)
      = .ok (StandardEasing.ofTypeSubtype m t .IN) := by
  obtain ⟨hne, hws, hcomma, _, _⟩ := shapeKeyword_facts t
  have htrim : trim (w₁ ++ shapeKeyword t ++ w₂) = shapeKeyword t :=
    trim_pad w₁ w₂ _ h₁ h₂ (fun a ha => hws a (List.mem_of_mem_head? ha))
      (fun b hb => hws b (List.mem_of_mem_getLast? hb)) hne
  have hfind : Str.find (shapeKeyword t) ',' = none :=
    (Str.find_eq_none_iff_not_mem _ _).mpr hcomma
  have hsplit : splitDefinition name (w₁ ++ shapeKeyword t ++ w₂)
      = .ok (shapeKeyword t, ['i', 'n'], []) := by
    simp only [splitDefinition, htrim, hfind]
  simp only [parseDefinition, hsplit, matchType_shapeKeyword]
  rfl

/-- The text of a shape keyword, a comma and a phase keyword, with whitespace
around the keywords. -/
theorem parseDefinition_shape_phase (m : Libm) (lexical_cast : Str → Option ℚ) (name : String)
    (w₁ w₂ w₃ w₄ : Str) (h₁ : ∀ c ∈ w₁, c ∈ whitespace) (h₂ : ∀ c ∈ w₂, c ∈ whitespace)
    (h₃ : ∀ c ∈ w₃, c ∈ whitespace) (h₄ : ∀ c ∈ w₄, c ∈ whitespace)
    (t : StandardEasing.Type_) (st : StandardEasing.Subtype) :
    parseDefinition m lexical_cast name
        (w₁ ++ ((shapeKeyword t ++ w₂) ++ ',' :: (w₃ ++ phaseKeyword st)) ++ w₄)
      = .ok (StandardEasing.ofTypeSubtype m t st) := by
  obtain ⟨hne, hws, hcomma, hp1, _⟩ := shapeKeyword_facts t
  obtain ⟨hne', hws', _, _, _⟩ := phaseKeyword_facts st
  have hcw : ',' ∉ whitespace := by decide
  have htrim : trim (w₁ ++ ((shapeKeyword t ++ w₂) ++ ',' :: (w₃ ++ phaseKeyword st)) ++ w₄)
      = (shapeKeyword t ++ w₂) ++ ',' :: (w₃ ++ phaseKeyword st) := by
    apply trim_pad w₁ w₄ _ h₁ h₄
    · intro a ha
      apply hws a
      cases hk : shapeKeyword t with
      | nil => exact absurd hk hne
      | cons x xs =>
        rw [hk] at ha
        simp at ha
        simp [ha]
    · intro b hb
      apply hws' b
      cases hk : phaseKeyword st with
      | nil => exact absurd hk hne'
      | cons x xs =>
        rw [hk] at hb
        have : shapeKeyword t ++ w₂ ++ ',' :: (w₃ ++ x :: xs)
            = (shapeKeyword t ++ w₂ ++ ',' :: w₃) ++ x :: xs := by simp
        rw [this, List.getLast?_append_cons] at hb
        exact List.mem_of_mem_getLast? hb
    · simp
  have hfind : Str.find ((shapeKeyword t ++ w₂) ++ ',' :: (w₃ ++ phaseKeyword st)) ','
      = some (shapeKeyword t ++ w₂).length := by
    apply Str.find_append_cons
    intro hmem
    rcases List.mem_append.mp hmem with h | h
    · exact hcomma h
    · exact hcw (h₂ _ h)
  have htake : List.take (shapeKeyword t ++ w₂).length
      ((shapeKeyword t ++ w₂) ++ ',' :: (w₃ ++ phaseKeyword st)) = shapeKeyword t ++ w₂ :=
    List.take_left _ _
  have hdrop : List.drop ((shapeKeyword t ++ w₂).length + 1)
      ((shapeKeyword t ++ w₂) ++ ',' :: (w₃ ++ phaseKeyword st)) = w₃ ++ phaseKeyword st := by
    have : (shapeKeyword t ++ w₂) ++ ',' :: (w₃ ++ phaseKeyword st)
        = ((shapeKeyword t ++ w₂) ++ [',']) ++ (w₃ ++ phaseKeyword st) := by simp
    rw [this]
    have hl : (shapeKeyword t ++ w₂).length + 1 = ((shapeKeyword t ++ w₂) ++ [',']).length := by
      simp only [List.length_append, List.length_singleton]
    rw [hl, List.drop_left]
  have ht1 : trim (shapeKeyword t ++ w₂) = shapeKeyword t := by
    have := trim_pad [] w₂ (shapeKeyword t) (by simp) h₂
      (fun a ha => hws a (List.mem_of_mem_head? ha))
      (fun b hb => hws b (List.mem_of_mem_getLast? hb)) hne
    simpa using this
  have ht2 : trim (w₃ ++ phaseKeyword st) = phaseKeyword st := by
    have := trim_pad w₃ [] (phaseKeyword st) h₃ (by simp)
      (fun a ha => hws' a (List.mem_of_mem_head? ha))
      (fun b hb => hws' b (List.mem_of_mem_getLast? hb)) hne'
    simpa using this
  have hparen : Str.find (shapeKeyword t) '(' = none := (Str.find_eq_none_iff_not_mem _ _).mpr hp1
  have hsplit : splitDefinition name
      (w₁ ++ ((shapeKeyword t ++ w₂) ++ ',' :: (w₃ ++ phaseKeyword st)) ++ w₄)
      = .ok (shapeKeyword t, phaseKeyword st, []) := by
    simp only [splitDefinition, htrim, hfind, htake, hdrop, ht1, ht2, hparen]
  simp only [parseDefinition, hsplit, matchType_shapeKeyword, matchSubtype_phaseKeyword]
  rfl

/-- An entry whose text is accepted is added under its name with its length;
an entry whose text is rejected ends `setProperties` with the store as it
was. -/
theorem setProperties_cons (m : Libm) (lexical_cast : Str → Option ℚ)
    (up : StandardEasing → BaseEasing) (self : TransitionStore) (name : String) (len : ℚ)
    (value : Str) (rest : List PropertyEntry) (hname : name ≠ "<xmlcomment>") :
    (∀ e, parseDefinition m lexical_cast name value = .ok e →
      setProperties m lexical_cast up self (⟨name, some len, value⟩ :: rest)
        = setProperties m lexical_cast up (self.add name len (some (up e))) rest) ∧
    (∀ err, parseDefinition m lexical_cast name value = .error err →
      setProperties m lexical_cast up self (⟨name, some len, value⟩ :: rest)
        = (self, some err)) := by
  constructor
  · intro e he
    simp only [setProperties, hname, if_false, he]
  · intro err he
    simp only [setProperties, hname, if_false, he]

end TransitionStore

namespace Str

theorem head_drop_of_find_eq_some (s : Str) (c : Char) :
    ∀ i, find s c = some i → (s.drop i).head? = some c := by
  induction s with
  | nil => intro i h; simp [find] at h
  | cons a s ih =>
    intro i h
    simp only [find] at h
    by_cases ha : a = c
    · simp only [ha, if_true, Option.some.injEq] at h
      subst h
      simp [ha]
    · simp only [ha, if_false, Option.map_eq_some'] at h
      obtain ⟨k, hk, rfl⟩ := h
      simpa using ih k hk

end Str

/-- The function `trim` keeps a first character that is not a whitespace. -/
theorem head_trim (s : Str) (a : Char) (h : s.head? = some a) (ha : a ∉ whitespace) :
    (trim s).head? = some a := by
  cases s with
  | nil => simp at h
  | cons b s =>
    simp only [List.head?_cons, Option.some.injEq] at h
    subst h
    unfold trim
    simp only [Str.find_first_not_of, ha, if_false]
    cases Str.find_last_not_of (b :: s) whitespace with
    | none => simp
    | some j => simp [List.take_succ_cons]

/-! ## The claims C21 to C30 -/

namespace TransitionStore

/-- Claim C21, evaluated on the code: a transition text with a parameter list
is not accepted.  The definition `quadratic(0.5), out` makes the second
`substr` of `setProperties` throw `std::out_of_range`, because `type_str` was
replaced by its part from the opening parenthesis on; `power(3, 1, 0.2), inout`
is rejected as well (its first comma is the one inside the parentheses); and
no definition containing a parenthesis is parsed without an error. -/
theorem parameters_rejected (m : Libm) (lexical_cast : Str → Option ℚ) (name : String) :
    parseDefinition m lexical_cast name "quadratic(0.5), out".toList
      = .error (.Foreign "std::out_of_range") ∧
    (∃ err, parseDefinition m lexical_cast name "power(3, 1, 0.2), inout".toList
      = .error err) ∧
    (∀ value, '(' ∈ value ∨ ')' ∈ value →
      ∃ err, parseDefinition m lexical_cast name value = .error err) := by
  have hgen : ∀ value, '(' ∈ value ∨ ')' ∈ value →
      ∃ err, parseDefinition m lexical_cast name value = .error err := by
    intro value hv
    cases h : parseDefinition m lexical_cast name value with
    | error err => exact ⟨err, rfl⟩
    | ok e =>
      obtain ⟨_, _, _, _, _, h1, h2⟩ := parseDefinition_eq_ok m lexical_cast name value e h
      rcases hv with hv | hv
      · exact absurd hv h1
      · exact absurd hv h2
  refine ⟨by rfl, hgen _ (Or.inl (by decide)), hgen⟩

/-- Claim C22: for every shape keyword and every phase keyword, with any
whitespace `w₁ … w₄` around the keywords, the text `s` is parsed to the shape
`s` with the phase `in` and the text `s, p` to the shape `s` with the phase
`p`; `setProperties` on such an entry returns without an exception after
`add(name, len, easing)`, and `get(name)` of the resulting store is the pair of
the length of the entry and that easing. -/
theorem keywords_accepted (m : Libm) (lexical_cast : Str → Option ℚ)
    (up : StandardEasing → BaseEasing) (self : TransitionStore) (name : String) (len : ℚ)
    (w₁ w₂ w₃ w₄ : Str) (t : StandardEasing.Type_) (st : StandardEasing.Subtype)
    (h₁ : ∀ c ∈ w₁, c ∈ whitespace) (h₂ : ∀ c ∈ w₂, c ∈ whitespace)
    (h₃ : ∀ c ∈ w₃, c ∈ whitespace) (h₄ : ∀ c ∈ w₄, c ∈ whitespace)
    (hname : name ≠ "<xmlcomment>") :
    parseDefinition m lexical_cast name (w₁ ++ shapeKeyword t ++ w₂)
      = .ok (StandardEasing.ofTypeSubtype m t .IN) ∧
    parseDefinition m lexical_cast name
        (w₁ ++ shapeKeyword t ++ w₂ ++ [','] ++ w₃ ++ phaseKeyword st ++ w₄)
      = .ok (StandardEasing.ofTypeSubtype m t st) ∧
    setProperties m lexical_cast up self [⟨name, some len, w₁ ++ shapeKeyword t ++ w₂⟩]
      = (self.add name len (some (up (StandardEasing.ofTypeSubtype m t .IN))), none) ∧
    setProperties m lexical_cast up self
        [⟨name, some len, w₁ ++ shapeKeyword t ++ w₂ ++ [','] ++ w₃ ++ phaseKeyword st ++ w₄⟩]
      = (self.add name len (some (up (StandardEasing.ofTypeSubtype m t st))), none) ∧
    (self.add name len (some (up (StandardEasing.ofTypeSubtype m t st)))).get name
      = .ok (len, some (up (StandardEasing.ofTypeSubtype m t st))) := by
  have hp1 := parseDefinition_shape m lexical_cast name w₁ w₂ h₁ h₂ t
  have hform : w₁ ++ shapeKeyword t ++ w₂ ++ [','] ++ w₃ ++ phaseKeyword st ++ w₄
      = w₁ ++ ((shapeKeyword t ++ w₂) ++ ',' :: (w₃ ++ phaseKeyword st)) ++ w₄ := by
    simp
  have hp2 : parseDefinition m lexical_cast name
      (w₁ ++ shapeKeyword t ++ w₂ ++ [','] ++ w₃ ++ phaseKeyword st ++ w₄)
      = .ok (StandardEasing.ofTypeSubtype m t st) := by
    rw [hform]
    exact parseDefinition_shape_phase m lexical_cast name w₁ w₂ w₃ w₄ h₁ h₂ h₃ h₄ t st
  refine ⟨hp1, hp2, ?_, ?_, ?_⟩
  · rw [(setProperties_cons m lexical_cast up self name len _ [] hname).1 _ hp1]
    rfl
  · rw [(setProperties_cons m lexical_cast up self name len _ [] hname).1 _ hp2]
    rfl
  · simp [get, add, StdMap.find_assign_self]

/-- An instance of `keywords_accepted`: the entry `fade` with the text
`" \tsine ,\n outin\r"`. -/
theorem keywords_accepted_witness :
    (∀ c ∈ [' ', '\t'], c ∈ whitespace) ∧ (∀ c ∈ [' '], c ∈ whitespace) ∧
    (∀ c ∈ ['\n', ' '], c ∈ whitespace) ∧ (∀ c ∈ ['\r'], c ∈ whitespace) ∧
    "fade" ≠ "<xmlcomment>" ∧
    parseDefinition exampleLibm (fun _ => none) "fade"
        ([' ', '\t'] ++ shapeKeyword .SINE ++ [' '] ++ [','] ++ ['\n', ' ']
          ++ phaseKeyword .OUTIN ++ ['\r'])
      = .ok (StandardEasing.ofTypeSubtype exampleLibm .SINE .OUTIN) :=
  ⟨by decide, by decide, by decide, by decide, by decide,
   (keywords_accepted exampleLibm (fun _ => none) (fun _ => StandardEasing.LINEAR) {} "fade" 1
     [' ', '\t'] [' '] ['\n', ' '] ['\r'] .SINE .OUTIN (by decide) (by decide) (by decide)
     (by decide) (by decide)).2.1⟩

/-- Claim C23: `setProperties` throws, and leaves the store as it was before
the entry, whenever the shape clause of the definition is none of the shape
keywords, or its phase clause is none of the phase keywords, or the definition
contains a parenthesis (which covers the misplaced and the unmatched ones and
every parameter list, the too long ones included). -/
theorem malformed_rejected (m : Libm) (lexical_cast : Str → Option ℚ)
    (up : StandardEasing → BaseEasing) (self : TransitionStore) (name : String) (len : ℚ)
    (value : Str) (rest : List PropertyEntry) (hname : name ≠ "<xmlcomment>")
    (hbad : (∀ t, shapeClause (trim value) ≠ shapeKeyword t) ∨
      (∃ ph, phaseClause (trim value) = some ph ∧ ∀ st, ph ≠ phaseKeyword st) ∨
      '(' ∈ value ∨ ')' ∈ value) :
    ∃ err, parseDefinition m lexical_cast name value = .error err ∧
      setProperties m lexical_cast up self (⟨name, some len, value⟩ :: rest)
        = (self, some err) := by
  cases h : parseDefinition m lexical_cast name value with
  | error err =>
    exact ⟨err, rfl, (setProperties_cons m lexical_cast up self name len value rest hname).2 err h⟩
  | ok e =>
    exfalso
    obtain ⟨t, st, _, hshape, hphase, h1, h2⟩ :=
      parseDefinition_eq_ok m lexical_cast name value e h
    rcases hbad with hb | ⟨ph, hph, hb⟩ | hb | hb
    · exact hb t hshape
    · rcases hphase with h3 | ⟨h3, _⟩
      · rw [hph] at h3
        exact hb st (Option.some.inj h3)
      · rw [hph] at h3
        cases h3
    · exact h1 hb
    · exact h2 hb

/-- An instance of `malformed_rejected`: the text `quadratic, sideways`, whose
phase clause is not a phase keyword. -/
theorem malformed_rejected_witness :
    "fade" ≠ "<xmlcomment>" ∧
    ((∀ t, shapeClause (trim "quadratic, sideways".toList) ≠ shapeKeyword t) ∨
      (∃ ph, phaseClause (trim "quadratic, sideways".toList) = some ph ∧
        ∀ st, ph ≠ phaseKeyword st) ∨
      '(' ∈ "quadratic, sideways".toList ∨ ')' ∈ "quadratic, sideways".toList) ∧
    ∃ err, parseDefinition exampleLibm (fun _ => none) "fade" "quadratic, sideways".toList
        = .error err ∧
      setProperties exampleLibm (fun _ => none) (fun _ => StandardEasing.LINEAR) {}
        (⟨"fade", some 1, "quadratic, sideways".toList⟩ :: []) = ({}, some err) :=
  have hbad : (∀ t, shapeClause (trim "quadratic, sideways".toList) ≠ shapeKeyword t) ∨
      (∃ ph, phaseClause (trim "quadratic, sideways".toList) = some ph ∧
        ∀ st, ph ≠ phaseKeyword st) ∨
      '(' ∈ "quadratic, sideways".toList ∨ ')' ∈ "quadratic, sideways".toList :=
    Or.inr (Or.inl ⟨"sideways".toList, by rfl, by intro st; cases st <;> decide⟩)
  ⟨by decide, hbad,
   malformed_rejected exampleLibm (fun _ => none) (fun _ => StandardEasing.LINEAR) {} "fade" 1
     "quadratic, sideways".toList [] (by decide) hbad⟩

end TransitionStore

namespace StandardEasing

/-- Claim C24, evaluated on the code: the easing `StandardEasing(POWER, 0)` is
not equivalent to the shape `NONE`.  With an exact `pow`, its `get` is `1` at
`x = 1` and at `x = 1/2`, where the `NONE` easing gives `0`. -/
theorem power_zero_is_not_none :
    get exampleLibm (ofTypePower exampleLibm .POWER 0) 1 = some 1 ∧
    get exampleLibm (ofTypePower exampleLibm .POWER 0) (1 / 2) = some 1 ∧
    get exampleLibm (ofTypePower exampleLibm .NONE 0) 1 = some 0 ∧
    get exampleLibm (ofTypePower exampleLibm .NONE 0) (1 / 2) = some 0 := by
  refine ⟨?_, ?_, rfl, rfl⟩
  · simp [get, ofTypePower, simpleGet, getPower, exampleLibm, floatDiv]
  · norm_num [get, ofTypePower, simpleGet, getPower, exampleLibm, floatDiv]

end StandardEasing

namespace CompositeEasing

/-- Claim C26: let the checkpoints be strictly increasing in time with a
positive first time, and let `(tk, xk, f)` be the first checkpoint with
`t ≤ tk` (the checkpoints `pre` before it are all earlier than `t`).  Then
`CompositeEasing::get(t)` is `x0 + (xk - x0) * f((t - t0) / (tk - t0))`, where
`(t0, x0)` is the checkpoint before it, or `(0, 0)` when it is the first one,
and the divisor `tk - t0` is positive. -/
theorem get_interpolates (pre post : StdMap ℚ (ℚ × BaseEasingPtr)) (tk xk : ℚ) (f : BaseEasing)
    (t : ℚ) (hs : StdMap.Sorted (pre ++ (tk, (xk, some f)) :: post))
    (hfirst : ∀ c ∈ (pre ++ (tk, (xk, some f)) :: post).head?, 0 < c.1)
    (hpre : ∀ c ∈ pre, c.1 < t) (ht : t ≤ tk) :
    (pre = [] →
      (CompositeEasing.mk (pre ++ (tk, (xk, some f)) :: post)).get t
        = some (0 + (xk - 0) * f.get ((t - 0) / (tk - 0))) ∧ 0 < tk - 0) ∧
    (∀ cp, pre.getLast? = some cp →
      (CompositeEasing.mk (pre ++ (tk, (xk, some f)) :: post)).get t
        = some (cp.2.1 + (xk - cp.2.1) * f.get ((t - cp.1) / (tk - cp.1))) ∧
      0 < tk - cp.1) := by
  have hlb : (StdMap.lower_bound (pre ++ (tk, (xk, some f)) :: post) t).val = pre.length := by
    rw [StdMap.lower_bound_append_of_lt _ _ _ hpre, StdMap.lower_bound_cons,
      if_neg (not_lt.mpr ht)]
    rfl
  have hi : (pre ++ (tk, (xk, some f)) :: post)[pre.length]? = some (tk, (xk, some f)) := by
    rw [List.getElem?_append_right (le_refl _)]
    simp
  constructor
  · intro hnil
    subst hnil
    have h0 : 0 < tk := hfirst (tk, (xk, some f)) (by simp)
    refine ⟨?_, by simpa using h0⟩
    exact get_of_lower_bound _ t 0 (tk, (xk, some f)) f 0 0 hlb hi (Or.inl ⟨rfl, rfl, rfl⟩) rfl
      (by simpa using ne_of_gt h0)
  · intro cp hcp
    obtain ⟨pre', rfl⟩ : ∃ pre', pre = pre' ++ [cp] := by
      rcases List.eq_nil_or_concat pre with h | ⟨l, b, h⟩
      · subst h; simp at hcp
      · subst h; simp at hcp; subst hcp; exact ⟨l, by simp⟩
    have hlt : cp.1 < tk := hs.lt_of_mem_before cp (by simp)
    refine ⟨?_, sub_pos.mpr hlt⟩
    refine get_of_lower_bound _ t (pre' ++ [cp]).length (tk, (xk, some f)) f cp.1 cp.2.1 hlb hi
      (Or.inr ⟨cp, by simp, ?_, rfl, rfl⟩) rfl (ne_of_gt (sub_pos.mpr hlt))
    show (pre' ++ [cp] ++ (tk, (xk, some f)) :: post)[(pre' ++ [cp]).length - 1]? = some cp
    have hlist : pre' ++ [cp] ++ (tk, (xk, some f)) :: post
        = pre' ++ cp :: (tk, (xk, some f)) :: post := by simp
    rw [hlist, List.length_append, List.length_singleton, Nat.add_sub_cancel,
      List.getElem?_append_right (le_refl _)]
    simp

/-- An instance of `get_interpolates`: one checkpoint `(1/2, 1/3, linear)` and
`t = 1/4`. -/
theorem get_interpolates_witness :
    StdMap.Sorted ([] ++ ((1 / 2 : ℚ), ((1 / 3 : ℚ), some StandardEasing.LINEAR)) :: []) ∧
    (∀ c ∈ ([] ++ ((1 / 2 : ℚ), ((1 / 3 : ℚ), some StandardEasing.LINEAR)) :: []).head?,
      0 < c.1) ∧
    (∀ c ∈ ([] : StdMap ℚ (ℚ × BaseEasingPtr)), c.1 < 1 / 4) ∧ (1 / 4 : ℚ) ≤ 1 / 2 ∧
    (CompositeEasing.mk ([] ++ ((1 / 2 : ℚ), ((1 / 3 : ℚ), some StandardEasing.LINEAR)) :: []
      )).get (1 / 4)
      = some (0 + (1 / 3 - 0) * StandardEasing.LINEAR.get ((1 / 4 - 0) / (1 / 2 - 0))) :=
  ⟨by simp [StdMap.Sorted], by norm_num, by simp, by norm_num,
   ((get_interpolates [] [] (1 / 2) (1 / 3) StandardEasing.LINEAR (1 / 4)
     (by simp [StdMap.Sorted]) (by norm_num) (by simp) (by norm_num)).1 rfl).1⟩

end CompositeEasing

namespace Animation
variable {V : Type}

/-- Claim C27: `Animation::addKeyframe(t, frame)` keeps the keyframe times
strictly increasing and stores `frame` at `t`; the number of keyframes is
unchanged when a keyframe at `t` existed and grows by one otherwise; the
keyframe at every other time is unchanged. -/
theorem addKeyframe_keeps_order (self : Animation V) (t : ℚ) (frame : Keyframe V)
    (hs : StdMap.Sorted self.keyframes_) :
    StdMap.Sorted (self.addKeyframe t frame).keyframes_ ∧
    StdMap.find (self.addKeyframe t frame).keyframes_ t = some frame ∧
    ((StdMap.find self.keyframes_ t).isSome = true →
      (self.addKeyframe t frame).keyframes_.length = self.keyframes_.length) ∧
    (StdMap.find self.keyframes_ t = none →
      (self.addKeyframe t frame).keyframes_.length = self.keyframes_.length + 1) ∧
    (∀ t', t' ≠ t →
      StdMap.find (self.addKeyframe t frame).keyframes_ t' = StdMap.find self.keyframes_ t') := by
  refine ⟨hs.assign t frame, StdMap.find_assign_self _ _ _, ?_, ?_, ?_⟩
  · intro h
    simp [addKeyframe, StdMap.length_assign hs, h]
  · intro h
    simp [addKeyframe, StdMap.length_assign hs, h]
  · intro t' h
    exact StdMap.find_assign_of_ne _ _ _ _ h

/-- An instance of `addKeyframe_keeps_order`: a keyframe added at `1/2` to the
timeline `linearTimeline`. -/
theorem addKeyframe_keeps_order_witness :
    StdMap.Sorted linearTimeline.keyframes_ ∧
    StdMap.Sorted (linearTimeline.addKeyframe (1 / 2) ⟨5, none⟩).keyframes_ ∧
    (linearTimeline.addKeyframe (1 / 2) ⟨5, none⟩).keyframes_.length
      = linearTimeline.keyframes_.length + 1 :=
  ⟨by decide,
   (addKeyframe_keeps_order linearTimeline (1 / 2) ⟨5, none⟩ (by decide)).1,
   (addKeyframe_keeps_order linearTimeline (1 / 2) ⟨5, none⟩ (by decide)).2.2.2.1
     (by norm_num [linearTimeline, StdMap.find])⟩

/-- Claim C28: for consecutive keyframes `kj`, `ki` of a timeline, when the
easing of `ki` is the empty pointer or is `0` everywhere (the shape `NONE`),
`Animation::get(t)` is the value of `kj` for every `kj.1 < t ≤ ki.1`, so also
at `t = ki.1`; and when the easing `e` of `ki` has `e(1) = 1`, `get(ki.1)` is
the value of `ki`.  A `StandardEasing` of type `NONE` is `0` everywhere. -/
theorem get_step_without_easing [AddCommGroup V] [Module ℚ V]
    (pre post : StdMap ℚ (Keyframe V)) (kj ki : ℚ × Keyframe V)
    (hs : StdMap.Sorted (pre ++ kj :: ki :: post)) :
    (∀ t, kj.1 < t → t ≤ ki.1 →
      (ki.2.easing = none ∨ ∃ e, ki.2.easing = some e ∧ ∀ x, e.get x = 0) →
      (Animation.mk (pre ++ kj :: ki :: post)).get t = .ok kj.2.value) ∧
    ((ki.2.easing = none ∨ ∃ e, ki.2.easing = some e ∧ ∀ x, e.get x = 0) →
      (Animation.mk (pre ++ kj :: ki :: post)).get ki.1 = .ok kj.2.value) ∧
    (∀ e, ki.2.easing = some e → e.get 1 = 1 →
      (Animation.mk (pre ++ kj :: ki :: post)).get ki.1 = .ok ki.2.value) ∧
    (∀ (m : Libm) (s : StandardEasing) (x : ℚ), s.type_ = .NONE →
      StandardEasing.get m s x = some 0) := by
  have hlt : kj.1 < ki.1 := by
    have h2 : StdMap.Sorted (kj :: ki :: post) := by
      unfold StdMap.Sorted at hs ⊢
      exact (List.pairwise_append.mp hs).2.1
    unfold StdMap.Sorted at h2
    exact (List.pairwise_cons.mp h2).1 ki (by simp)
  have hstep : ∀ t, kj.1 < t → t ≤ ki.1 →
      (ki.2.easing = none ∨ ∃ e, ki.2.easing = some e ∧ ∀ x, e.get x = 0) →
      (Animation.mk (pre ++ kj :: ki :: post)).get t = .ok kj.2.value := by
    intro t h1 h2 he
    have hpre : ∀ a ∈ pre, a.1 < t := fun a ha => lt_trans (hs.lt_of_mem_before a ha) h1
    rw [get_between pre post kj ki t hpre h1 h2]
    rcases he with he | ⟨e, he, h0⟩
    · simp [interpolate, he]
    · simp [interpolate, he, h0]
  refine ⟨hstep, hstep ki.1 hlt (le_refl _), ?_, ?_⟩
  swap
  · intro m s x h
    simp [StandardEasing.get, h]
  intro e he h1
  have hpre : ∀ a ∈ pre, a.1 < ki.1 := fun a ha => lt_trans (hs.lt_of_mem_before a ha) hlt
  rw [get_between pre post kj ki ki.1 hpre hlt (le_refl _)]
  have hpos : ki.1 - kj.1 > 0 := sub_pos.mpr hlt
  simp [interpolate, he, hpos, ne_of_gt hpos, h1]

/-- An instance of `get_step_without_easing`: keyframes `0` at time `0` and `1`
at time `1`, both without an easing; the value at time `1` is `0`. -/
theorem get_step_without_easing_witness :
    StdMap.Sorted ([] ++ ((0 : ℚ), (⟨0, none⟩ : Keyframe ℚ)) :: (1, ⟨1, none⟩) :: []) ∧
    (Animation.mk ([] ++ ((0 : ℚ), (⟨0, none⟩ : Keyframe ℚ)) :: (1, ⟨1, none⟩) :: [])).get 1
      = .ok 0 :=
  ⟨by decide,
   (get_step_without_easing [] [] (0, ⟨0, none⟩) (1, ⟨1, none⟩) (by decide)).2.1 (Or.inl rfl)⟩

end Animation

namespace Animator
variable {V : Type}

/-- Claim C29: on a registry whose entries have strictly increasing keys, each
the address of its own variable, and non-empty timelines, `Animator::update`
with the clock at `now` returns a state on which a second `update` at the same
`now` changes nothing: same registry and same client storage. -/
theorem update_idempotent [Add V] [SMul ℚ V] (w : World V) (now : ℚ)
    (hs : StdMap.Sorted w.animator.animations_)
    (hvar : ∀ e ∈ w.animator.animations_, e.2.variable_ = e.1)
    (hne : ∀ e ∈ w.animator.animations_, e.2.keyframes_.keyframes_ ≠ []) :
    ∃ w₁, update w now = .ok w₁ ∧ update w₁ now = .ok w₁ := by
  obtain ⟨heap', h1, _, h3⟩ := updateValues_spec w.animator.animations_ now w.heap hne
  have hpw : w.animator.animations_.Pairwise (fun a b => a.2.variable_ ≠ b.2.variable_) := by
    unfold StdMap.Sorted at hs
    rw [List.pairwise_iff_forall_sublist] at hs ⊢
    intro a b hab
    have ha : a ∈ w.animator.animations_ := hab.subset (by simp)
    have hb : b ∈ w.animator.animations_ := hab.subset (by simp)
    rw [hvar a ha, hvar b hb]
    exact ne_of_lt (hs hab)
  have hval := h3 hpw
  refine ⟨{ heap := heap', animator := ⟨eraseEnded w.animator.animations_ now⟩ }, ?_, ?_⟩
  · simp only [update, h1]
  · have hfix : updateValues (eraseEnded w.animator.animations_ now) heap' now = .ok heap' := by
      apply updateValues_fixed
      intro e he
      rw [eraseEnded_eq_filter] at he
      exact hval e (List.mem_filter.mp he).1
    simp only [update, hfix]
    congr 2
    simp only [eraseEnded_eq_filter, List.filter_filter, Bool.and_self]

/-- An instance of `update_idempotent`: the world `twoVariableWorld` at time
`2`. -/
theorem update_idempotent_witness :
    StdMap.Sorted twoVariableWorld.animator.animations_ ∧
    (∀ e ∈ twoVariableWorld.animator.animations_, e.2.variable_ = e.1) ∧
    (∀ e ∈ twoVariableWorld.animator.animations_, e.2.keyframes_.keyframes_ ≠ []) ∧
    ∃ w₁, update twoVariableWorld 2 = .ok w₁ ∧ update w₁ 2 = .ok w₁ :=
  ⟨by decide, by decide, by simp [twoVariableWorld, linearTimeline],
   update_idempotent twoVariableWorld 2 (by decide) (by decide)
     (by simp [twoVariableWorld, linearTimeline])⟩

end Animator

namespace TransitionStore

/-- Claim C30: a definition that `setProperties` parses without an error
contains no parenthesis, and its easing has the parameters set by the
constructor (power `0`, sub-power `1`, straightness `0`, frequency `M_PI / 2`);
whenever `type_params_str` is not empty, `type_str` begins with `(` and the
comparison with the shape keywords fails. -/
theorem accepted_has_default_parameters (m : Libm) (lexical_cast : Str → Option ℚ)
    (name : String) (value : Str) :
    (∀ e, parseDefinition m lexical_cast name value = .ok e →
      '(' ∉ value ∧ ')' ∉ value ∧
      e.power_ = 0 ∧ e.subpower_ = 1 ∧ e.straight_ = 0 ∧ e.freq_ = m.M_PI / 2) ∧
    (∀ ty sub ps, splitDefinition name value = .ok (ty, sub, ps) → ps ≠ [] →
      ty.head? = some '(' ∧ ∃ err, matchType name ty = .error err) := by
  constructor
  · intro e h
    obtain ⟨t, st, he, _, _, h1, h2⟩ := parseDefinition_eq_ok m lexical_cast name value e h
    subst he
    exact ⟨h1, h2, rfl, rfl, rfl, rfl⟩
  · intro ty sub ps h hps
    have hfail : ∃ err, matchType name ty = .error err := by
      cases hm : matchType name ty with
      | error err => exact ⟨err, rfl⟩
      | ok t =>
        exact absurd (splitDefinition_of_matchType name value ty sub ps t h hm).1 hps
    refine ⟨?_, hfail⟩
    unfold splitDefinition at h
    simp only at h
    cases hc : Str.find (trim value) ',' with
    | none =>
      simp only [hc, Except.ok.injEq, Prod.mk.injEq] at h
      exact absurd h.2.2.symm hps
    | some pc =>
      simp only [hc] at h
      cases hp1 : Str.find (trim (List.take pc (trim value))) '(' with
      | none =>
        simp only [hp1, Except.ok.injEq, Prod.mk.injEq] at h
        exact absurd h.2.2.symm hps
      | some p1 =>
        cases hp2 : Str.find (trim (List.take pc (trim value))) ')' with
        | none =>
          simp only [hp1, hp2, Except.ok.injEq, Prod.mk.injEq] at h
          exact absurd h.2.2.symm hps
        | some p2 =>
          simp only [hp1, hp2] at h
          split at h
          · cases h
          · split at h
            · cases h
            · simp only [Except.ok.injEq, Prod.mk.injEq] at h
              rw [← h.1]
              exact head_trim _ _ (Str.head_drop_of_find_eq_some _ _ _ hp1) (by decide)

end TransitionStore

end SpectralAnalyzer
